import Mathlib

/-!
# Array evaluator (`ao/src/eval/eval_a.cpp`)

A shallow embedding of `Kernel::ArrayEvaluator`: the batch buffer `f`, the
constructors, the variable binding operations `setVar` / `updateVars`, the branch
decision `check`, the opcode dispatch `evalClause` and the evaluation entry points
`values` / `eval` / `evalAndPush`.

Modelling conventions.

* A lane holds a finite `float`; it is modelled by an exact rational.  NaN, the
  infinities, signed zeros and rounding are outside the model, so every statement
  below is a statement about finite values under exact arithmetic.
* The buffer `f` (an `Eigen::Array<float, Dynamic, N>`) is a function from a clause
  row and a lane index to a value.  Row `r` has the lanes `0 .. N-1`; the model of a
  walk is meant for a lane count `count ≤ N`.
* The transcendental functions of the C math library are a parameter (`Libm`).
* The `while` loop of the `MOD` opcode is run with a fuel that counts executions of
  its body; running out of fuel is reported as `EvalError.outOfFuel`.
* The tape (`Tape`, `Clause`), its walk and `set` are declared outside the source
  file; they are modelled from the specification.  `Tape::push` is a parameter.
* The array is not initialised by its allocation; its initial content is a parameter
  of the constructor.
-/

namespace Kernel

/-- A lane value: a finite `float`, modelled exactly. -/
abbrev Val := ℚ

/-- The type `Clause::Id`: a dense clause index, the row index of the buffer. -/
abbrev ClauseId := Nat

/-- The type `Tree::Id`: the opaque handle of a variable in the owning expression. -/
abbrev TreeId := Nat

/-- The opcode enumeration, as listed by the `switch` of `evalClause`. -/
inductive Opcode where
  | INVALID | CONST | VAR_X | VAR_Y | VAR_Z | VAR | CONST_VAR
  | SQUARE | SQRT | NEG | SIN | COS | TAN | ASIN | ACOS | ATAN | EXP | ABS | RECIP
  | ADD | MUL | MIN | MAX | SUB | DIV | ATAN2 | POW | NTH_ROOT | MOD | NANFILL
  | LAST_OP
  deriving DecidableEq, Repr

/-- The decision `Tape::Keep` returned by `check`. -/
inductive Keep where
  | KEEP_BOTH | KEEP_A | KEEP_B
  deriving DecidableEq, Repr

/-- Modelled from the spec: the declaration of `Clause` is not part of the source file.
One clause of the tape: an opcode, the row `id` it computes and the rows `a`, `b` of its
operands (these are the four arguments the walk passes to `evalClause`). -/
structure Clause where
  op : Opcode
  id : ClauseId
  a : ClauseId
  b : ClauseId

/-- Modelled from the spec: the declaration of `Tape` is not part of the source file.
The fields are the ones the evaluator reads: the clause count, the variable binding
table `vars` (a `boost::bimap` between clause rows and variable handles, here the
list of its pairs in the iteration order of its left view), the constant table
`constants` (clause row, literal), the rows `X`, `Y`, `Z` of the three spatial
variables, and the top of the specialization stack: the active order `active` (the
clauses in the order in which the walk evaluates them) and the row `root` of the
output clause. -/
structure Tape where
  num_clauses : Nat
  vars : List (ClauseId × TreeId)
  constants : List (ClauseId × Val)
  X : ClauseId := 0
  Y : ClauseId := 0
  Z : ClauseId := 0
  active : List Clause := []
  root : ClauseId := 0

/-- The lookup `tape.vars.right.find(var)`: the clause row bound to a variable handle,
`none` standing for `tape.vars.right.end()`. -/
def Tape.rightFind (t : Tape) (var : TreeId) : Option ClauseId :=
  (t.vars.find? (fun p => p.2 = var)).map Prod.fst

/-- The invariant of the binding table: it is a bijection, so no clause row and no
variable handle occurs twice. -/
def Tape.WF (t : Tape) : Prop :=
  (t.vars.map Prod.fst).Nodup ∧ (t.vars.map Prod.snd).Nodup

/-- The batch buffer `f`: row (clause id) and lane to value. -/
abbrev Buf := ClauseId → Nat → Val

/-- The assignment `f.row(r) = v` of a scalar to a row: every one of the `N` lanes of
row `r` receives `v`. -/
def rowFill (N : Nat) (f : Buf) (r : ClauseId) (v : Val) : Buf :=
  fun r' i => if r' = r ∧ i < N then v else f r' i

/-- The assignment `f.row(id).head(count) = g` of a lane-wise expression: lane `i` of
row `id` receives `g i` for every `i < count`.  The block `head(count)` lies in the
row for `count ≤ N` only; what the program does with a longer block is outside the
model. -/
def headAssign (count : Nat) (f : Buf) (id : ClauseId) (g : Nat → Val) : Buf :=
  fun r i => if r = id ∧ i < count then g i else f r i

/-- The assignment `f.row(id).head(count)(i) = v` of one coefficient. -/
def setLane (f : Buf) (id : ClauseId) (i : Nat) (v : Val) : Buf :=
  fun r j => if r = id ∧ j = i then v else f r j

/-- The state of an `ArrayEvaluator`: the tape it refers to, the buffer `f` and the
lane count `count` of the current walk. -/
structure ArrayEvaluator where
  tape : Tape
  f : Buf
  count : Nat

/-- The functions of the C math library used by the dispatch. -/
structure Libm where
  atan2 : Val → Val → Val
  pow : Val → Val → Val
  sqrt : Val → Val
  sin : Val → Val
  cos : Val → Val
  tan : Val → Val
  asin : Val → Val
  acos : Val → Val
  atan : Val → Val
  exp : Val → Val

/-- Rounding toward zero. -/
def trunc (q : ℚ) : ℤ := if 0 ≤ q then ⌊q⌋ else ⌈q⌉

/-- The remainder `std::fmod(x, y) = x - y * trunc (x / y)` in exact arithmetic, for a
divisor `y ≠ 0`; `std::fmod(x, 0)` is a NaN, which is outside the model. -/
def fmod (x y : Val) : Val := x - y * (trunc (x / y) : ℚ)

/-- The test `isNaN()`; no value of the model is a NaN. -/
def isNaN (_ : Val) : Bool := false

/-- The ways an operation can fail to return normally. -/
inductive EvalError where
  | assertFalse
  | outOfRange
  | outOfFuel
  deriving DecidableEq, Repr

/-- The method `setVar(var, value)`. -/
def ArrayEvaluator.setVar (N : Nat) (e : ArrayEvaluator) (var : TreeId) (value : Val) :
    ArrayEvaluator :=
  match e.tape.rightFind var with
  | some r => { e with f := rowFill N e.f r value }
  | none => e

/-- The loop of `updateVars` over the remaining pairs of `tape.vars.left`, with the
current value of `changed`; `vars_ id = none` means that `vars_.at(id)` throws. -/
def updateVarsLoop (N : Nat) (vars_ : TreeId → Option Val) :
    List (ClauseId × TreeId) → Bool → Buf → Except EvalError Bool × Buf
  | [], changed, f => (.ok changed, f)
  | v :: rest, changed, f =>
    match vars_ v.2 with
    | none => (.error .outOfRange, f)
    | some val =>
      if val ≠ f v.1 0 then updateVarsLoop N vars_ rest true (rowFill N f v.1 val)
      else updateVarsLoop N vars_ rest changed f

/-- The method `updateVars(vars_)`: the returned flag (or the exception) and the
evaluator afterwards. -/
def ArrayEvaluator.updateVars (N : Nat) (e : ArrayEvaluator) (vars_ : TreeId → Option Val) :
    Except EvalError Bool × ArrayEvaluator :=
  let r := updateVarsLoop N vars_ e.tape.vars false e.f
  (r.1, { e with f := r.2 })

/-- The method `check(op, a, b)`. -/
def ArrayEvaluator.check (e : ArrayEvaluator) (op : Opcode) (a b : ClauseId) : Keep :=
  if op = Opcode.MAX then
    if e.f a 0 > e.f b 0 then Keep.KEEP_A
    else if e.f b 0 > e.f a 0 then Keep.KEEP_B
    else Keep.KEEP_BOTH
  else if op = Opcode.MIN then
    if e.f a 0 > e.f b 0 then Keep.KEEP_B
    else if e.f b 0 > e.f a 0 then Keep.KEEP_A
    else Keep.KEEP_BOTH
  else Keep.KEEP_BOTH

/-- The loop `while (out(i) < 0) out(i) += b(i)` on the buffer; the first argument is
the number of executions of the body that are still allowed. -/
def modWhile (id b : ClauseId) (i : Nat) : Nat → Buf → Except EvalError Buf
  | 0, f => if f id i < 0 then .error .outOfFuel else .ok f
  | fuel + 1, f =>
    if f id i < 0 then modWhile id b i fuel (setLane f id i (f id i + f b i))
    else .ok f

/-- The body of the `for` loop of the `MOD` case at lane `i`. -/
def modLane (fuel : Nat) (id a b : ClauseId) (i : Nat) (f : Buf) : Except EvalError Buf :=
  modWhile id b i fuel (setLane f id i (fmod (f a i) (f b i)))

/-- A loop `for (i = 0; i < n; ++i) body`, lanes in increasing order. -/
def forLanes (body : Nat → Buf → Except EvalError Buf) : Nat → Buf → Except EvalError Buf
  | 0, f => .ok f
  | n + 1, f => (forLanes body n f).bind (body n)

/-- The method `evalClause(op, id, a, b)`; `fuel` bounds the `while` loop of `MOD` in
each lane. -/
def ArrayEvaluator.evalClause (m : Libm) (fuel : Nat) (e : ArrayEvaluator) (op : Opcode)
    (id a b : ClauseId) : Except EvalError ArrayEvaluator :=
  let out2 (g : Val → Val → Val) : Except EvalError ArrayEvaluator :=
    .ok { e with f := headAssign e.count e.f id (fun i => g (e.f a i) (e.f b i)) }
  let out1 (g : Val → Val) : Except EvalError ArrayEvaluator :=
    .ok { e with f := headAssign e.count e.f id (fun i => g (e.f a i)) }
  match op with
  | .ADD => out2 (fun x y => x + y)
  | .MUL => out2 (fun x y => x * y)
  | .MIN => out2 (fun x y => min x y)
  | .MAX => out2 (fun x y => max x y)
  | .SUB => out2 (fun x y => x - y)
  | .DIV => out2 (fun x y => x / y)
  | .ATAN2 => out2 m.atan2
  | .POW => out2 m.pow
  | .NTH_ROOT => out2 (fun x y => m.pow x (1 / y))
  | .MOD =>
    match forLanes (modLane fuel id a b) e.count e.f with
    | .ok f' => .ok { e with f := f' }
    | .error err => .error err
  | .NANFILL => out2 (fun x y => if isNaN x then y else x)
  | .SQUARE => out1 (fun x => x * x)
  | .SQRT => out1 m.sqrt
  | .NEG => out1 (fun x => -x)
  | .SIN => out1 m.sin
  | .COS => out1 m.cos
  | .TAN => out1 m.tan
  | .ASIN => out1 m.asin
  | .ACOS => out1 m.acos
  | .ATAN => out1 m.atan
  | .EXP => out1 m.exp
  | .ABS => out1 (fun x => |x|)
  | .RECIP => out1 (fun x => 1 / x)
  | .CONST_VAR => out1 (fun x => x)
  | .INVALID | .CONST | .VAR_X | .VAR_Y | .VAR_Z | .VAR | .LAST_OP => .error .assertFalse

/-- The opcodes that `evalClause` computes: every opcode of the enumeration except the
seven of the final `assert(false)` group. -/
def Opcode.dispatchable : Opcode → Bool
  | .INVALID | .CONST | .VAR_X | .VAR_Y | .VAR_Z | .VAR | .LAST_OP => false
  | _ => true

/-- A point `Eigen::Vector3f`. -/
structure Vec3 where
  x : Val
  y : Val
  z : Val

/-- The first loop of the constructor: `f.row(tape.vars.right.at(v.first)) = v.second`
for the entries of the initial mapping in order; `right.at` throws on a handle that
the tape does not bind. -/
def constructVars (N : Nat) (t : Tape) : List (TreeId × Val) → Buf → Except EvalError Buf
  | [], f => .ok f
  | v :: rest, f =>
    match t.rightFind v.1 with
    | none => .error .outOfRange
    | some r => constructVars N t rest (rowFill N f r v.2)

/-- The second loop of the constructor: `f.row(c.first) = c.second` for the entries of
the constant table in order. -/
def constructConsts (N : Nat) : List (ClauseId × Val) → Buf → Buf
  | [], f => f
  | c :: rest, f => constructConsts N rest (rowFill N f c.1 c.2)

/-- The constructor `ArrayEvaluator(t, vars)`.  The initial mapping `vars` (a
`std::map`) is the list of its entries; `alloc` is the content of the array
`f(t.num_clauses, N)` as allocated and `count` the initial content of the member
`count`: the constructor assigns neither. -/
def ArrayEvaluator.construct (N : Nat) (t : Tape) (vars : List (TreeId × Val))
    (alloc : Buf) (count : Nat) : Except EvalError ArrayEvaluator :=
  match constructVars N t vars alloc with
  | .error err => .error err
  | .ok f => .ok { tape := t, f := constructConsts N t.constants f, count := count }

/-- The constructor `ArrayEvaluator(t)`, which delegates with an empty mapping. -/
def ArrayEvaluator.construct1 (N : Nat) (t : Tape) (alloc : Buf) (count : Nat) :
    Except EvalError ArrayEvaluator :=
  ArrayEvaluator.construct N t [] alloc count

/-- Modelled from the spec: the definition of `set(pt, index)` is not part of the
source file.  It binds the three spatial variables to the components of the point in
lane `index`. -/
def ArrayEvaluator.set (e : ArrayEvaluator) (pt : Vec3) (index : Nat) : ArrayEvaluator :=
  let fx := setLane e.f e.tape.X index pt.x
  let fy := setLane fx e.tape.Y index pt.y
  { e with f := setLane fy e.tape.Z index pt.z }

/-- The loop of the walk: `evalClause` for each clause of the order in turn; the first
failure ends it. -/
def walkClauses (m : Libm) (fuel : Nat) : List Clause → ArrayEvaluator →
    Except EvalError ArrayEvaluator
  | [], e => .ok e
  | c :: rest, e =>
    match e.evalClause m fuel c.op c.id c.a c.b with
    | .error err => .error err
    | .ok e' => walkClauses m fuel rest e'

/-- Modelled from the spec: the definition of `Tape::walk` is not part of the source
file.  It walks the current active order in dependency order, computing each clause
with `evalClause`, and returns the row of the root clause. -/
def Tape.walk (m : Libm) (fuel : Nat) (t : Tape) (e : ArrayEvaluator) :
    Except EvalError (ClauseId × ArrayEvaluator) :=
  match walkClauses m fuel t.active e with
  | .error err => .error err
  | .ok e' => .ok (t.root, e')

/-- The method `values(_count)`: it stores the count, walks the tape and returns the
root row (the address `&f(root, 0)`), here with the evaluator afterwards. -/
def ArrayEvaluator.values (m : Libm) (fuel : Nat) (e : ArrayEvaluator) (_count : Nat) :
    Except EvalError (ClauseId × ArrayEvaluator) :=
  e.tape.walk m fuel { e with count := _count }

/-- The method `eval(pt)`: the value `*values(1)` after `set(pt, 0)`, with the
evaluator afterwards. -/
def ArrayEvaluator.eval (m : Libm) (fuel : Nat) (e : ArrayEvaluator) (pt : Vec3) :
    Except EvalError (Val × ArrayEvaluator) :=
  match (e.set pt 0).values m fuel 1 with
  | .error err => .error err
  | .ok (r, e') => .ok (e'.f r 0, e')

/-- The method `evalAndPush(pt)`.  The definition of `Tape::push` is not part of the
source file; `push` stands for the effect of `tape.push(*this)` on the evaluator and
its tape. -/
def ArrayEvaluator.evalAndPush (m : Libm) (fuel : Nat)
    (push : ArrayEvaluator → ArrayEvaluator) (e : ArrayEvaluator) (pt : Vec3) :
    Except EvalError (Val × ArrayEvaluator) :=
  match e.eval m fuel pt with
  | .error err => .error err
  | .ok (out, e') => .ok (out, push e')

/-- The rows a walk of the clause list writes. -/
def writtenRows (cs : List Clause) : List ClauseId := cs.map Clause.id

/-- The opcodes whose formula reads the second operand row `b`. -/
def Opcode.binary : Opcode → Bool
  | .ADD | .MUL | .MIN | .MAX | .SUB | .DIV | .ATAN2 | .POW | .NTH_ROOT | .MOD
  | .NANFILL => true
  | _ => false

/-- The order condition on a clause list, `earlier` being the rows computed before it
and `written` all rows the walk computes: each operand row is computed earlier or is
a leaf, that is, a row the walk does not compute. -/
def OrderWF (written : List ClauseId) : List ClauseId → List Clause → Prop
  | _, [] => True
  | earlier, c :: rest =>
    (c.a ∈ earlier ∨ c.a ∉ written) ∧
      (c.op.binary = true → (c.b ∈ earlier ∨ c.b ∉ written)) ∧
      OrderWF written (c.id :: earlier) rest

/-- A well-formed active order: every active clause is a non-leaf (its opcode is
dispatchable) and each of its operands is a leaf or is computed earlier in the
order. -/
def Tape.ActiveWF (t : Tape) : Prop :=
  (∀ c ∈ t.active, c.op.dispatchable = true) ∧ OrderWF (writtenRows t.active) [] t.active

/-! ## Concrete inputs -/

/-- A table of rational stand-ins for the math library, used to run the opcodes that
do not consult it at concrete inputs. -/
def Libm.sample : Libm where
  atan2 := fun x _ => x
  pow := fun x _ => x
  sqrt := fun x => x
  sin := fun x => x
  cos := fun _ => 1
  tan := fun x => x
  asin := fun x => x
  acos := fun _ => 0
  atan := fun x => x
  exp := fun x => 1 + x

/-- The tape of `f(x, y) = op(x, y)`: row 1 holds `x` (handle 10), row 2 holds `y`
(handle 11), row 3 is the binary clause. -/
def tapeXY : Tape := { num_clauses := 4, vars := [(1, 10), (2, 11)], constants := [] }

/-- A buffer whose lane 0 of rows 1 and 2 holds `x` and `y`; everything else is 0. -/
def bufXY (x y : Val) : Buf :=
  fun r i => if i = 0 then (if r = 1 then x else if r = 2 then y else 0) else 0

/-- The evaluator of `tapeXY` at the point `(x, y)`, single lane. -/
def evalXY (x y : Val) : ArrayEvaluator := { tape := tapeXY, f := bufXY x y, count := 1 }

/-- A two-lane batch with mixed dominance: row 1 holds `[1, 0]`, row 2 holds `[0, 1]`. -/
def evalMixed : ArrayEvaluator :=
  { tape := tapeXY
    f := fun r i => if (r = 1 ∧ i = 0) ∨ (r = 2 ∧ i = 1) then 1 else 0
    count := 2 }

/-- The tape of `f(x) = op(x, c)`: row 1 holds `x` (handle 10), row 2 the constant `c`,
row 3 is the binary clause. -/
def tapeXC (c : Val) : Tape := { num_clauses := 4, vars := [(1, 10)], constants := [(2, c)] }

/-- The evaluator of `tapeXC c` at `x`, single lane. -/
def evalXC (x c : Val) : ArrayEvaluator := { tape := tapeXC c, f := bufXY x c, count := 1 }

/-- A mapping with entries for `x` (handle 10), `y` (handle 11) and for a handle, 99,
that `tapeXY` does not bind. -/
def sampleVars : TreeId → Option Val :=
  fun id => if id = 10 then some 3 else if id = 11 then some 8 else if id = 99 then some 1
    else none

/-- A mapping with an entry for `x` (handle 10) only. -/
def onlyX : TreeId → Option Val := fun id => if id = 10 then some 3 else none

/-- The tape of `f(x) = x * x`: row 1 holds `x`, row 2 is the `SQUARE` clause. -/
def tapeSquare : Tape :=
  { num_clauses := 3, vars := [(1, 10)], constants := [], X := 1,
    active := [{ op := Opcode.SQUARE, id := 2, a := 1, b := 0 }], root := 2 }

/-- A three-lane batch of `tapeSquare`: row 1 holds `[-2, 0, 2]`. -/
def evalSquare3 : ArrayEvaluator :=
  { tape := tapeSquare
    f := fun r i => if r = 1 then (if i = 0 then -2 else if i = 2 then 2 else 0) else 0
    count := 3 }

/-- The single-lane evaluator of `tapeSquare` with `x` in lane 0. -/
def evalSquare1 (x : Val) : ArrayEvaluator :=
  { tape := tapeSquare, f := bufXY x 0, count := 1 }

/-- The tape of `f(x, y) = max(x, y)`: rows 1 and 2 hold `x` and `y`, row 3 is the `MAX`
clause. -/
def tapeMax : Tape :=
  { num_clauses := 4, vars := [(1, 10), (2, 11)], constants := [], X := 1, Y := 2,
    active := [{ op := Opcode.MAX, id := 3, a := 1, b := 2 }], root := 3 }

/-- An evaluator of `tapeMax` whose buffer holds 9 everywhere. -/
def evalMax : ArrayEvaluator := { tape := tapeMax, f := fun _ _ => 9, count := 1 }

/-- A freshly allocated array that happens to hold 7 everywhere. -/
def alloc7 : Buf := fun _ _ => 7

/-! ## The decision `check` -/

/-- C1: `check` implements the decision rule on lane 0 of the two operand rows: for
`MAX` it returns `KEEP_A` when `f(a,0) > f(b,0)` and `KEEP_B` when `f(b,0) > f(a,0)`;
for `MIN` it returns `KEEP_B` when `f(a,0) > f(b,0)` and `KEEP_A` when
`f(b,0) > f(a,0)`; in every other case (equal values, or an opcode other than
`MIN`/`MAX`) it returns `KEEP_BOTH`.  This holds for every buffer and every pair of
clause ids. -/
theorem check_decision_rule (e : ArrayEvaluator) (op : Opcode) (a b : ClauseId) :
    (op = Opcode.MAX →
      (e.f a 0 > e.f b 0 → e.check op a b = Keep.KEEP_A) ∧
      (e.f b 0 > e.f a 0 → e.check op a b = Keep.KEEP_B)) ∧
    (op = Opcode.MIN →
      (e.f a 0 > e.f b 0 → e.check op a b = Keep.KEEP_B) ∧
      (e.f b 0 > e.f a 0 → e.check op a b = Keep.KEEP_A)) ∧
    ((op ≠ Opcode.MAX ∧ op ≠ Opcode.MIN) ∨ e.f a 0 = e.f b 0 →
      e.check op a b = Keep.KEEP_BOTH) := by
  refine ⟨?_, ?_, ?_⟩
  · rintro rfl
    refine ⟨fun h => ?_, fun h => ?_⟩
    · simp [ArrayEvaluator.check, h]
    · have h' : ¬ e.f a 0 > e.f b 0 := not_lt.mpr (le_of_lt h)
      simp only [ArrayEvaluator.check, if_true, if_neg h', if_pos h]
  · rintro rfl
    refine ⟨fun h => ?_, fun h => ?_⟩
    · simp [ArrayEvaluator.check, h]
    · have h' : ¬ e.f a 0 > e.f b 0 := not_lt.mpr (le_of_lt h)
      simp [ArrayEvaluator.check, h', h]
  · rintro (⟨h1, h2⟩ | h)
    · simp [ArrayEvaluator.check, h1, h2]
    · unfold ArrayEvaluator.check
      rw [h]
      simp

/-- The rule of C1 at `max(x, y)`, `(x, y) = (3, 5)`: `y` exceeds `x`, keep `B`. -/
theorem check_decision_rule_witness :
    (evalXY 3 5).f 2 0 > (evalXY 3 5).f 1 0 ∧
    (evalXY 3 5).check Opcode.MAX 1 2 = Keep.KEEP_B :=
  have h : (evalXY 3 5).f 2 0 > (evalXY 3 5).f 1 0 := by norm_num [evalXY, bufXY]
  ⟨h, ((check_decision_rule (evalXY 3 5) Opcode.MAX 1 2).1 rfl).2 h⟩

/-- C2: pruning is locally sound for a single-lane walk (`count = 1`): for a `MIN` or
`MAX` clause `id` with operands `a`, `b`, the clause evaluation succeeds, and if
`check` returns `KEEP_A` the value written to lane 0 of row `id` is `f(a,0)`, if it
returns `KEEP_B` that value is `f(b,0)`. -/
theorem prune_sound_single_lane (m : Libm) (fuel : Nat) (e : ArrayEvaluator) (op : Opcode)
    (id a b : ClauseId) (hop : op = Opcode.MIN ∨ op = Opcode.MAX) (hc : e.count = 1) :
    ∃ e', e.evalClause m fuel op id a b = Except.ok e' ∧
      (e.check op a b = Keep.KEEP_A → e'.f id 0 = e.f a 0) ∧
      (e.check op a b = Keep.KEEP_B → e'.f id 0 = e.f b 0) := by
  rcases hop with rfl | rfl
  · refine ⟨_, rfl, ?_, ?_⟩
    · intro h
      have hab : e.f a 0 ≤ e.f b 0 := by
        by_contra hn
        have hlt : e.f a 0 > e.f b 0 := not_le.mp hn
        simp [ArrayEvaluator.check, hlt] at h
      simp [headAssign, hc, min_eq_left hab]
    · intro h
      have hba : e.f b 0 ≤ e.f a 0 := by
        by_contra hn
        have hlt : e.f b 0 > e.f a 0 := not_le.mp hn
        have hlt' : ¬ e.f a 0 > e.f b 0 := not_lt.mpr (le_of_lt hlt)
        simp [ArrayEvaluator.check, hlt, hlt'] at h
      simp [headAssign, hc, min_eq_right hba]
  · refine ⟨_, rfl, ?_, ?_⟩
    · intro h
      have hba : e.f b 0 ≤ e.f a 0 := by
        by_contra hn
        have hlt : e.f b 0 > e.f a 0 := not_le.mp hn
        have hlt' : ¬ e.f a 0 > e.f b 0 := not_lt.mpr (le_of_lt hlt)
        simp [ArrayEvaluator.check, hlt, hlt'] at h
      simp [headAssign, hc, max_eq_left hba]
    · intro h
      have hab : e.f a 0 ≤ e.f b 0 := by
        by_contra hn
        have hlt : e.f a 0 > e.f b 0 := not_le.mp hn
        simp [ArrayEvaluator.check, hlt] at h
      simp [headAssign, hc, max_eq_right hab]

/-- The scenario of C2: for `max(x, y)` at `(3, 5)` the decision is `KEEP_B` (keep `y`)
and the clause evaluates to `5`, the value of the kept operand. -/
theorem prune_sound_single_lane_witness :
    (evalXY 3 5).check Opcode.MAX 1 2 = Keep.KEEP_B ∧
    ∃ e', (evalXY 3 5).evalClause Libm.sample 0 Opcode.MAX 3 1 2 = Except.ok e' ∧
      e'.f 3 0 = 5 := by
  have hk : (evalXY 3 5).check Opcode.MAX 1 2 = Keep.KEEP_B := by
    norm_num [ArrayEvaluator.check, evalXY, bufXY]
  obtain ⟨e', he, -, hB⟩ :=
    prune_sound_single_lane Libm.sample 0 (evalXY 3 5) Opcode.MAX 3 1 2 (Or.inr rfl) rfl
  refine ⟨hk, e', he, ?_⟩
  rw [hB hk]
  norm_num [evalXY, bufXY]

/-- C3, as stated, fails: in the two-lane batch `evalMixed` operand `A` (row 1) exceeds
`B` (row 2) in lane 0 and `B` exceeds `A` in lane 1, yet `check` does not return
`KEEP_BOTH`: it keeps `A` for `MAX` and `B` for `MIN`. -/
theorem check_mixed_lanes_counterexample :
    evalMixed.count = 2 ∧
    evalMixed.f 1 0 > evalMixed.f 2 0 ∧ evalMixed.f 2 1 > evalMixed.f 1 1 ∧
    evalMixed.check Opcode.MAX 1 2 = Keep.KEEP_A ∧
    evalMixed.check Opcode.MIN 1 2 = Keep.KEEP_B := by
  refine ⟨rfl, ?_, ?_, ?_, ?_⟩ <;> simp [evalMixed, ArrayEvaluator.check]

/-- C3, amended: the decision pass compares the two operand rows at lane 0 only.  The
result of `check(op, a, b)` is the same for any two evaluator states that agree on
`f(a,0)` and `f(b,0)`, whatever their `count` and whatever their lanes `1, 2, ...`
hold. -/
theorem check_lane_zero_only (e e' : ArrayEvaluator) (op : Opcode) (a b : ClauseId)
    (ha : e.f a 0 = e'.f a 0) (hb : e.f b 0 = e'.f b 0) :
    e.check op a b = e'.check op a b := by
  simp [ArrayEvaluator.check, ha, hb]

/-- The amended C3 at the mixed batch: a state that agrees with `evalMixed` on lane 0
only (the single-lane point `(1, 0)`) gets the same decision. -/
theorem check_lane_zero_only_witness :
    evalMixed.check Opcode.MAX 1 2 = (evalXY 1 0).check Opcode.MAX 1 2 :=
  check_lane_zero_only evalMixed (evalXY 1 0) Opcode.MAX 1 2
    (by norm_num [evalMixed, evalXY, bufXY]) (by norm_num [evalMixed, evalXY, bufXY])

/-! ## The `MOD` opcode -/

theorem setLane_same (f : Buf) (id : ClauseId) (i : Nat) (v : Val) :
    setLane f id i v id i = v := by
  simp [setLane]

theorem setLane_setLane (f : Buf) (id : ClauseId) (i : Nat) (v w : Val) :
    setLane (setLane f id i v) id i w = setLane f id i w := by
  funext r j
  by_cases h : r = id ∧ j = i <;> simp [setLane, h]

theorem setLane_headAssign (n : Nat) (f : Buf) (id : ClauseId) (g : Nat → Val) :
    setLane (headAssign n f id g) id n (g n) = headAssign (n + 1) f id g := by
  funext r j
  by_cases hr : r = id
  · subst hr
    rcases lt_trichotomy j n with h | h | h
    · have h1 : j ≠ n := ne_of_lt h
      have h2 : j < n + 1 := by omega
      simp [setLane, headAssign, h, h1, h2]
    · subst h
      simp [setLane, headAssign]
    · have h1 : j ≠ n := ne_of_gt h
      have h2 : ¬ j < n + 1 := by omega
      have h3 : ¬ j < n := by omega
      simp [setLane, headAssign, h1, h2, h3]
  · simp [setLane, headAssign, hr]

theorem headAssign_of_le (n : Nat) (f : Buf) (id : ClauseId) (g : Nat → Val) (r : ClauseId)
    (j : Nat) (h : n ≤ j) : headAssign n f id g r j = f r j := by
  have h' : ¬ j < n := by omega
  simp [headAssign, h']

/-- The loop exits at once when the lane is not negative. -/
theorem modWhile_of_nonneg (id b : ClauseId) (i fuel : Nat) (f : Buf) (h : 0 ≤ f id i) :
    modWhile id b i fuel f = Except.ok f := by
  have h' : ¬ f id i < 0 := not_lt.mpr h
  cases fuel <;> simp [modWhile, h']

/-- One execution of the body is enough when it makes the lane non-negative. -/
theorem modWhile_once (id b : ClauseId) (i fuel : Nat) (f : Buf) (h : f id i < 0)
    (h1 : 0 ≤ f id i + f b i) :
    modWhile id b i (fuel + 1) f = Except.ok (setLane f id i (f id i + f b i)) := by
  rw [modWhile, if_pos h]
  exact modWhile_of_nonneg _ _ _ _ _ (by rw [setLane_same]; exact h1)

/-- The loop never exits when the lane is negative and the divisor lane is not
positive: no amount of fuel is enough. -/
theorem modWhile_diverges (id b : ClauseId) (i : Nat) (fuel : Nat) :
    ∀ f : Buf, f id i < 0 → f b i ≤ 0 →
      modWhile id b i fuel f = Except.error EvalError.outOfFuel := by
  induction fuel with
  | zero => intro f h _; simp [modWhile, h]
  | succ n ih =>
    intro f h hb
    rw [modWhile, if_pos h]
    have hneg : f id i + f b i < 0 := by linarith
    apply ih
    · rw [setLane_same]; exact hneg
    · by_cases hbi : b = id
      · subst hbi
        rw [setLane_same]; exact le_of_lt hneg
      · simpa [setLane, hbi] using hb

/-- The remainder for a positive divisor: it lies in `(-y, y)`; when it is not negative
it already is `x - y * ⌊x / y⌋`, and when it is negative adding the divisor once gives
that value. -/
theorem fmod_pos_divisor (x y : Val) (hy : 0 < y) :
    (0 ≤ fmod x y → fmod x y = x - y * (⌊x / y⌋ : ℚ)) ∧
    (fmod x y < 0 → fmod x y + y = x - y * (⌊x / y⌋ : ℚ)) := by
  have hx : y * (x / y) = x := by field_simp
  have hfl : (⌊x / y⌋ : ℚ) ≤ x / y := Int.floor_le _
  have hfl' : x / y < (⌊x / y⌋ : ℚ) + 1 := Int.lt_floor_add_one _
  have hce : x / y ≤ (⌈x / y⌉ : ℚ) := Int.le_ceil _
  have hce' : (⌈x / y⌉ : ℚ) < x / y + 1 := Int.ceil_lt_add_one _
  unfold fmod trunc
  by_cases hq : 0 ≤ x / y
  · rw [if_pos hq]
    refine ⟨fun _ => rfl, fun h => ?_⟩
    have : y * (⌊x / y⌋ : ℚ) ≤ y * (x / y) := mul_le_mul_of_nonneg_left hfl (le_of_lt hy)
    linarith
  · rw [if_neg hq]
    constructor
    · intro h
      have h1 : y * (⌈x / y⌉ : ℚ) ≤ y * (x / y) := by linarith
      have h2 : (⌈x / y⌉ : ℚ) ≤ x / y := le_of_mul_le_mul_left h1 hy
      have h3 : ((⌈x / y⌉ : ℤ) : ℚ) ≤ ((⌊x / y⌋ : ℤ) : ℚ) + 1 := by linarith
      have h4 : (⌊x / y⌋ : ℚ) ≤ (⌈x / y⌉ : ℚ) := le_trans hfl hce
      have h5 : x / y = (⌈x / y⌉ : ℚ) := le_antisymm hce h2
      have h6 : ⌊x / y⌋ = ⌈x / y⌉ := by
        conv_lhs => rw [h5]
        exact Int.floor_intCast _
      rw [h6]
    · intro h
      have h1 : y * (x / y) < y * (⌈x / y⌉ : ℚ) := by linarith
      have h2 : x / y < (⌈x / y⌉ : ℚ) := lt_of_mul_lt_mul_left h1 (le_of_lt hy)
      have h3 : ((⌊x / y⌋ : ℤ) : ℚ) < ((⌈x / y⌉ : ℤ) : ℚ) := lt_of_le_of_lt hfl h2
      have h4 : ((⌈x / y⌉ : ℤ) : ℚ) < ((⌊x / y⌋ : ℤ) : ℚ) + 2 := by linarith
      have h3' : ⌊x / y⌋ < ⌈x / y⌉ := by exact_mod_cast h3
      have h4' : ⌈x / y⌉ < ⌊x / y⌋ + 2 := by exact_mod_cast h4
      have h5 : ⌈x / y⌉ = ⌊x / y⌋ + 1 := by omega
      rw [h5]
      push_cast
      ring

/-- The floored remainder for a positive divisor lies in `[0, y)`. -/
theorem floorMod_bounds (x y : Val) (hy : 0 < y) :
    0 ≤ x - y * (⌊x / y⌋ : ℚ) ∧ x - y * (⌊x / y⌋ : ℚ) < y := by
  have hx : y * (x / y) = x := by field_simp
  have hfl : (⌊x / y⌋ : ℚ) ≤ x / y := Int.floor_le _
  have hfl' : x / y < (⌊x / y⌋ : ℚ) + 1 := Int.lt_floor_add_one _
  have h1 : y * (⌊x / y⌋ : ℚ) ≤ y * (x / y) := mul_le_mul_of_nonneg_left hfl (le_of_lt hy)
  have h2 : y * (x / y) < y * ((⌊x / y⌋ : ℚ) + 1) := mul_lt_mul_of_pos_left hfl' hy
  constructor
  · linarith
  · linarith [mul_add y (⌊x / y⌋ : ℚ) 1]

/-- The body of the `MOD` loop at one lane, for a positive divisor lane of a row other
than the output row: one unit of fuel is enough and the lane receives
`x - y * ⌊x / y⌋`. -/
theorem modLane_pos_divisor (fuel : Nat) (id a b : ClauseId) (i : Nat) (f : Buf)
    (hb : id ≠ b) (hy : 0 < f b i) :
    modLane (fuel + 1) id a b i f =
      Except.ok (setLane f id i (f a i - f b i * (⌊f a i / f b i⌋ : ℚ))) := by
  obtain ⟨h1, h2⟩ := fmod_pos_divisor (f a i) (f b i) hy
  unfold modLane
  by_cases h : 0 ≤ fmod (f a i) (f b i)
  · rw [modWhile_of_nonneg _ _ _ _ _ (by rw [setLane_same]; exact h), h1 h]
  · have hlt : fmod (f a i) (f b i) < 0 := not_le.mp h
    have hbi : setLane f id i (fmod (f a i) (f b i)) b i = f b i := by
      simp [setLane, Ne.symm hb]
    have hnn := (floorMod_bounds (f a i) (f b i) hy).1
    rw [modWhile_once _ _ _ _ _ (by rw [setLane_same]; exact hlt)
      (by rw [setLane_same, hbi, h2 hlt]; exact hnn)]
    rw [setLane_same, hbi, h2 hlt, setLane_setLane]

theorem headAssign_zero (f : Buf) (id : ClauseId) (g : Nat → Val) :
    headAssign 0 f id g = f := by
  funext r j
  simp [headAssign]

/-- The `for` loop of `MOD` over `n` lanes whose divisors are positive: with one unit
of fuel per lane it returns, and lane `i < n` of the output row holds
`f(a,i) - f(b,i) * ⌊f(a,i) / f(b,i)⌋`. -/
theorem forLanes_modLane_pos (fuel : Nat) (id a b : ClauseId) (f : Buf) (hb : id ≠ b) :
    ∀ n : Nat, (∀ i, i < n → 0 < f b i) →
      forLanes (modLane (fuel + 1) id a b) n f =
        Except.ok (headAssign n f id (fun i => f a i - f b i * (⌊f a i / f b i⌋ : ℚ))) := by
  intro n
  induction n with
  | zero => intro _; rw [headAssign_zero]; rfl
  | succ n ih =>
    intro h
    rw [forLanes, ih (fun i hi => h i (Nat.lt_succ_of_lt hi))]
    show modLane (fuel + 1) id a b n _ = _
    have hbn : ∀ r, headAssign n f id (fun i => f a i - f b i * (⌊f a i / f b i⌋ : ℚ)) r n
        = f r n := fun r => headAssign_of_le _ _ _ _ _ _ (le_refl n)
    rw [modLane_pos_divisor fuel id a b n _ hb (by rw [hbn]; exact h n (Nat.lt_succ_self n))]
    rw [hbn a, hbn b]
    exact congrArg Except.ok
      (setLane_headAssign n f id (fun i => f a i - f b i * (⌊f a i / f b i⌋ : ℚ)))

/-- The `while` loop changes the lane it normalises and nothing else. -/
theorem modWhile_frame (id b : ClauseId) (i : Nat) (fuel : Nat) :
    ∀ f f' : Buf, modWhile id b i fuel f = Except.ok f' →
      ∀ r j, (r ≠ id ∨ j ≠ i) → f' r j = f r j := by
  induction fuel with
  | zero =>
    intro f f' h r j _
    by_cases hn : f id i < 0
    · simp [modWhile, hn] at h
    · simp only [modWhile, if_neg hn, Except.ok.injEq] at h
      rw [← h]
  | succ n ih =>
    intro f f' h r j hrj
    by_cases hn : f id i < 0
    · rw [modWhile, if_pos hn] at h
      rw [ih _ _ h r j hrj]
      have : ¬ (r = id ∧ j = i) := by
        rintro ⟨h1, h2⟩
        rcases hrj with h3 | h3
        · exact h3 h1
        · exact h3 h2
      simp [setLane, this]
    · simp only [modWhile, if_neg hn, Except.ok.injEq] at h
      rw [← h]

/-- The only way the `while` loop fails is by exhausting its fuel. -/
theorem modWhile_error (id b : ClauseId) (i : Nat) (fuel : Nat) :
    ∀ (f : Buf) (err : EvalError), modWhile id b i fuel f = Except.error err →
      err = EvalError.outOfFuel := by
  induction fuel with
  | zero =>
    intro f err h
    by_cases hn : f id i < 0
    · simp only [modWhile, if_pos hn, Except.error.injEq] at h
      exact h.symm
    · simp [modWhile, hn] at h
  | succ n ih =>
    intro f err h
    by_cases hn : f id i < 0
    · rw [modWhile, if_pos hn] at h
      exact ih _ _ h
    · simp [modWhile, hn] at h

/-- The `for` loop of `MOD` over the lanes below `n` leaves the lanes from `n` on, and
every row other than the output row, as they were. -/
theorem forLanes_modLane_frame (fuel : Nat) (id a b : ClauseId) :
    ∀ (n : Nat) (f f' : Buf), forLanes (modLane fuel id a b) n f = Except.ok f' →
      ∀ r j, (r ≠ id ∨ n ≤ j) → f' r j = f r j := by
  intro n
  induction n with
  | zero =>
    intro f f' h r j _
    simp only [forLanes, Except.ok.injEq] at h
    rw [← h]
  | succ n ih =>
    intro f f' h r j hrj
    rw [forLanes] at h
    cases hn : forLanes (modLane fuel id a b) n f with
    | error err => rw [hn] at h; simp [Except.bind] at h
    | ok fn =>
      rw [hn] at h
      have h' : modLane fuel id a b n fn = Except.ok f' := h
      have hrj' : r ≠ id ∨ j ≠ n := by
        rcases hrj with h1 | h1
        · exact Or.inl h1
        · exact Or.inr (by omega)
      have hrj'' : r ≠ id ∨ n ≤ j := by
        rcases hrj with h1 | h1
        · exact Or.inl h1
        · exact Or.inr (by omega)
      rw [modWhile_frame id b n fuel _ _ h' r j hrj']
      have : ¬ (r = id ∧ j = n) := by
        rintro ⟨h1, h2⟩
        rcases hrj' with h3 | h3
        · exact h3 h1
        · exact h3 h2
      simp only [setLane, if_neg this]
      exact ih f fn hn r j hrj''

/-- The only way the `for` loop of `MOD` fails is by exhausting the fuel of a lane. -/
theorem forLanes_modLane_error (fuel : Nat) (id a b : ClauseId) :
    ∀ (n : Nat) (f : Buf) (err : EvalError),
      forLanes (modLane fuel id a b) n f = Except.error err → err = EvalError.outOfFuel := by
  intro n
  induction n with
  | zero => intro f err h; simp [forLanes] at h
  | succ n ih =>
    intro f err h
    rw [forLanes] at h
    cases hn : forLanes (modLane fuel id a b) n f with
    | error err' =>
      rw [hn] at h
      simp only [Except.bind, Except.error.injEq] at h
      rw [← h]
      exact ih f err' hn
    | ok fn =>
      rw [hn] at h
      exact modWhile_error id b n fuel _ err h

/-- A lane `k` whose divisor is negative and whose remainder is negative stops the
`for` loop of `MOD` for good: whatever the fuel, the loop over more than `k` lanes
does not return. -/
theorem forLanes_modLane_diverges (fuel : Nat) (id a b : ClauseId) (k : Nat) (f : Buf)
    (hb : f b k < 0) (hm : fmod (f a k) (f b k) < 0) :
    ∀ n : Nat, k < n →
      forLanes (modLane fuel id a b) n f = Except.error EvalError.outOfFuel := by
  intro n
  induction n with
  | zero => intro h; omega
  | succ n ih =>
    intro hk
    rw [forLanes]
    by_cases hkn : k < n
    · rw [ih hkn]; rfl
    · have hkn' : k = n := by omega
      subst hkn'
      cases hn : forLanes (modLane fuel id a b) k f with
      | error err =>
        rw [forLanes_modLane_error fuel id a b k f err hn]; rfl
      | ok fn =>
        show modLane fuel id a b k fn = _
        have hfr : ∀ r, fn r k = f r k := fun r =>
          forLanes_modLane_frame fuel id a b k f fn hn r k (Or.inr (le_refl k))
        unfold modLane
        rw [hfr a, hfr b]
        apply modWhile_diverges
        · rw [setLane_same]; exact hm
        · by_cases hbi : b = id
          · subst hbi
            rw [setLane_same]; exact le_of_lt hm
          · simp only [setLane, hbi, false_and, if_false]
            rw [hfr b]; exact le_of_lt hb

theorem fmod_neg1_neg3 : fmod (-1) (-3) = -1 := by
  have h : ⌊((-1 : ℚ) / (-3))⌋ = 0 := Int.floor_eq_iff.mpr ⟨by norm_num, by norm_num⟩
  have hq : (0 : ℚ) ≤ (-1 : ℚ) / (-3) := by norm_num
  unfold fmod trunc
  rw [if_pos hq, h]
  norm_num

theorem fmod_neg7_neg2 : fmod (-7) (-2) = -1 := by
  have h : ⌊((-7 : ℚ) / (-2))⌋ = 3 := Int.floor_eq_iff.mpr ⟨by norm_num, by norm_num⟩
  have hq : (0 : ℚ) ≤ (-7 : ℚ) / (-2) := by norm_num
  unfold fmod trunc
  rw [if_pos hq, h]
  norm_num

/-- C4: the `MOD` opcode at `a = -1`, `b = -3` (both finite, `b ≠ 0`).  The remainder
`fmod(-1, -3) = -1` is negative and the loop adds the negative divisor to it, so the
clause evaluation does not return for any amount of fuel: no value `r` with
`0 ≤ r < 3` is written. -/
theorem mod_neg_divisor_no_result (m : Libm) (fuel : Nat) :
    (evalXC (-1) (-3)).evalClause m fuel Opcode.MOD 3 1 2 =
      Except.error EvalError.outOfFuel := by
  have hb : (evalXC (-1) (-3)).f 2 0 < 0 := by norm_num [evalXC, bufXY]
  have hm : fmod ((evalXC (-1) (-3)).f 1 0) ((evalXC (-1) (-3)).f 2 0) < 0 := by
    have h1 : (evalXC (-1) (-3)).f 1 0 = -1 := by norm_num [evalXC, bufXY]
    have h2 : (evalXC (-1) (-3)).f 2 0 = -3 := by norm_num [evalXC, bufXY]
    rw [h1, h2, fmod_neg1_neg3]
    norm_num
  have h := forLanes_modLane_diverges fuel 3 1 2 0 (evalXC (-1) (-3)).f hb hm 1 (by omega)
  have hc : (evalXC (-1) (-3)).count = 1 := rfl
  simp only [ArrayEvaluator.evalClause, hc, h]

/-- C5: the `MOD` opcode is a true non-negative modulo for positive divisors.  When
every evaluated lane of the divisor row `b` is positive (and `b` is not the output
row), the clause evaluation returns with one execution of the normalising loop body
allowed per lane, and lane `i < count` of row `id` receives
`f(a,i) - f(b,i) * ⌊f(a,i) / f(b,i)⌋`. -/
theorem mod_floored_pos_divisor (m : Libm) (fuel : Nat) (e : ArrayEvaluator)
    (id a b : ClauseId) (hfuel : 1 ≤ fuel) (hid : id ≠ b)
    (hpos : ∀ i, i < e.count → 0 < e.f b i) :
    e.evalClause m fuel Opcode.MOD id a b =
      Except.ok { e with
        f := headAssign e.count e.f id
              (fun i => e.f a i - e.f b i * (⌊e.f a i / e.f b i⌋ : ℚ)) } := by
  obtain ⟨n, rfl⟩ : ∃ n, fuel = n + 1 := ⟨fuel - 1, by omega⟩
  simp only [ArrayEvaluator.evalClause, forLanes_modLane_pos n id a b e.f hid e.count hpos]

/-- The scenarios of C5: `mod(-1, 3) = 2` and `mod(7, 3) = 1`, each with at most one
execution of the loop body. -/
theorem mod_floored_pos_divisor_witness :
    (∃ e', (evalXC (-1) 3).evalClause Libm.sample 1 Opcode.MOD 3 1 2 = Except.ok e' ∧
      e'.f 3 0 = 2) ∧
    (∃ e', (evalXC 7 3).evalClause Libm.sample 1 Opcode.MOD 3 1 2 = Except.ok e' ∧
      e'.f 3 0 = 1) := by
  have h1 : ⌊((-1 : ℚ) / 3)⌋ = -1 := Int.floor_eq_iff.mpr ⟨by norm_num, by norm_num⟩
  have h2 : ⌊((7 : ℚ) / 3)⌋ = 2 := Int.floor_eq_iff.mpr ⟨by norm_num, by norm_num⟩
  have hp : ∀ x : Val, ∀ i, i < (evalXC x 3).count → 0 < (evalXC x 3).f 2 i := by
    intro x i hi
    have hi0 : i = 0 := by
      have : i < 1 := hi
      omega
    subst hi0
    norm_num [evalXC, bufXY]
  constructor
  · refine ⟨_, mod_floored_pos_divisor Libm.sample 1 (evalXC (-1) 3) 3 1 2 (le_refl 1)
      (by decide) (hp (-1)), ?_⟩
    simp only [headAssign, evalXC, bufXY]
    norm_num [h1]
  · refine ⟨_, mod_floored_pos_divisor Libm.sample 1 (evalXC 7 3) 3 1 2 (le_refl 1)
      (by decide) (hp 7), ?_⟩
    simp only [headAssign, evalXC, bufXY]
    norm_num [h2]

/-- C6: a clause evaluation need not complete.  If some evaluated lane `k` of a `MOD`
clause has a negative divisor `f(b,k)` and a negative remainder
`fmod(f(a,k), f(b,k))`, the normalising loop
`while (out(i) < 0) out(i) += b(i)` never exits: for every amount of fuel the
evaluation fails to return. -/
theorem evalClause_mod_diverges (m : Libm) (fuel : Nat) (e : ArrayEvaluator)
    (id a b : ClauseId) (k : Nat) (hk : k < e.count) (hb : e.f b k < 0)
    (hm : fmod (e.f a k) (e.f b k) < 0) :
    e.evalClause m fuel Opcode.MOD id a b = Except.error EvalError.outOfFuel := by
  simp only [ArrayEvaluator.evalClause,
    forLanes_modLane_diverges fuel id a b k e.f hb hm e.count hk]

/-- The divergence of C6 at `a = -7`, `b = -2` (remainder `-1`), with a fuel of a
thousand loop iterations. -/
theorem evalClause_mod_diverges_witness :
    (evalXC (-7) (-2)).evalClause Libm.sample 1000 Opcode.MOD 3 1 2 =
      Except.error EvalError.outOfFuel :=
  evalClause_mod_diverges Libm.sample 1000 (evalXC (-7) (-2)) 3 1 2 0 (by decide)
    (by norm_num [evalXC, bufXY])
    (by
      have h1 : (evalXC (-7) (-2)).f 1 0 = -7 := by norm_num [evalXC, bufXY]
      have h2 : (evalXC (-7) (-2)).f 2 0 = -2 := by norm_num [evalXC, bufXY]
      rw [h1, h2, fmod_neg7_neg2]
      norm_num)

/-! ## Variable binding: `updateVars` and `setVar` -/

theorem rowFill_other (N : Nat) (f : Buf) (r r' : ClauseId) (v : Val) (i : Nat)
    (h : r' ≠ r) : rowFill N f r v r' i = f r' i := by
  simp [rowFill, h]

theorem rowFill_same (N : Nat) (f : Buf) (r : ClauseId) (v : Val) (i : Nat) (h : i < N) :
    rowFill N f r v r i = v := by
  simp [rowFill, h]

/-- The loop of `updateVars` touches only rows of the pairs it visits. -/
theorem updateVarsLoop_frame (N : Nat) (vars_ : TreeId → Option Val)
    (l : List (ClauseId × TreeId)) :
    ∀ (changed : Bool) (f : Buf) (r : ClauseId), (∀ v ∈ l, v.1 ≠ r) →
      ∀ i, (updateVarsLoop N vars_ l changed f).2 r i = f r i := by
  induction l with
  | nil => intro changed f r _ i; rfl
  | cons v rest ih =>
    intro changed f r hr i
    have hv : v.1 ≠ r := hr v (List.mem_cons_self _ _)
    have hrest : ∀ w ∈ rest, w.1 ≠ r := fun w hw => hr w (List.mem_cons_of_mem _ hw)
    unfold updateVarsLoop
    cases hval : vars_ v.2 with
    | none => rfl
    | some val =>
      by_cases hne : val ≠ f v.1 0
      · simp only [if_pos hne]
        rw [ih true _ r hrest i, rowFill_other N f v.1 r val i (Ne.symm hv)]
      · simp only [if_neg hne]
        exact ih changed f r hrest i

/-- The flag returned by the loop of `updateVars` when every visited variable has an
entry: the incoming flag, or some visited variable whose entry differs from lane 0 of
its row. -/
theorem updateVarsLoop_flag (N : Nat) (vars_ : TreeId → Option Val)
    (l : List (ClauseId × TreeId)) :
    ∀ (changed : Bool) (f : Buf), (∀ v ∈ l, vars_ v.2 ≠ none) →
      ∃ c, (updateVarsLoop N vars_ l changed f).1 = Except.ok c ∧
        (c = true ↔ changed = true ∨ ∃ v ∈ l, vars_ v.2 ≠ some (f v.1 0)) := by
  induction l with
  | nil => intro changed f _; exact ⟨changed, rfl, by simp⟩
  | cons v rest ih =>
    intro changed f hcov
    have hrest : ∀ w ∈ rest, vars_ w.2 ≠ none := fun w hw => hcov w (List.mem_cons_of_mem _ hw)
    unfold updateVarsLoop
    cases hval : vars_ v.2 with
    | none => exact absurd hval (hcov v (List.mem_cons_self _ _))
    | some val =>
      by_cases hne : val ≠ f v.1 0
      · simp only [if_pos hne]
        obtain ⟨c, hc, hiff⟩ := ih true (rowFill N f v.1 val) hrest
        refine ⟨c, hc, ?_⟩
        have hct : c = true := hiff.mpr (Or.inl rfl)
        constructor
        · intro _
          refine Or.inr ⟨v, List.mem_cons_self _ _, ?_⟩
          rw [hval]
          intro h
          exact hne (Option.some.inj h)
        · intro _; exact hct
      · simp only [if_neg hne]
        obtain ⟨c, hc, hiff⟩ := ih changed f hrest
        refine ⟨c, hc, ?_⟩
        rw [hiff]
        have heq : val = f v.1 0 := not_not.mp hne
        constructor
        · rintro (h | ⟨w, hw, hd⟩)
          · exact Or.inl h
          · exact Or.inr ⟨w, List.mem_cons_of_mem _ hw, hd⟩
        · rintro (h | ⟨w, hw, hd⟩)
          · exact Or.inl h
          · rcases List.mem_cons.mp hw with rfl | hw'
            · exact absurd (by rw [hval, heq]) hd
            · exact Or.inr ⟨w, hw', hd⟩

/-- After the loop of `updateVars`, lane 0 of the row of every visited variable holds
its entry, provided no row is visited twice. -/
theorem updateVarsLoop_post (N : Nat) (hN : 0 < N) (vars_ : TreeId → Option Val)
    (l : List (ClauseId × TreeId)) :
    ∀ (changed : Bool) (f : Buf), (l.map Prod.fst).Nodup → (∀ v ∈ l, vars_ v.2 ≠ none) →
      ∀ v ∈ l, vars_ v.2 = some ((updateVarsLoop N vars_ l changed f).2 v.1 0) := by
  induction l with
  | nil => intro _ _ _ _ v hv; simp at hv
  | cons v rest ih =>
    intro changed f hnd hcov w hw
    have hrest : ∀ u ∈ rest, vars_ u.2 ≠ none := fun u hu => hcov u (List.mem_cons_of_mem _ hu)
    rw [List.map_cons, List.nodup_cons] at hnd
    have hvrest : ∀ u ∈ rest, u.1 ≠ v.1 := by
      intro u hu heq
      exact hnd.1 (heq ▸ List.mem_map_of_mem Prod.fst hu)
    unfold updateVarsLoop
    cases hval : vars_ v.2 with
    | none => exact absurd hval (hcov v (List.mem_cons_self _ _))
    | some val =>
      by_cases hne : val ≠ f v.1 0
      · simp only [if_pos hne]
        rcases List.mem_cons.mp hw with rfl | hw'
        · rw [updateVarsLoop_frame N vars_ rest true _ w.1 hvrest 0, rowFill_same N f w.1 val 0 hN]
          exact hval
        · exact ih true _ hnd.2 hrest w hw'
      · simp only [if_neg hne]
        rcases List.mem_cons.mp hw with rfl | hw'
        · rw [updateVarsLoop_frame N vars_ rest changed f w.1 hvrest 0, hval, not_not.mp hne]
        · exact ih changed f hnd.2 hrest w hw'

/-- The loop of `updateVars` throws exactly when a visited variable has no entry. -/
theorem updateVarsLoop_error_iff (N : Nat) (vars_ : TreeId → Option Val)
    (l : List (ClauseId × TreeId)) :
    ∀ (changed : Bool) (f : Buf),
      (∃ err, (updateVarsLoop N vars_ l changed f).1 = Except.error err) ↔
        ∃ v ∈ l, vars_ v.2 = none := by
  induction l with
  | nil => intro changed f; simp [updateVarsLoop]
  | cons v rest ih =>
    intro changed f
    unfold updateVarsLoop
    cases hval : vars_ v.2 with
    | none =>
      constructor
      · intro _; exact ⟨v, List.mem_cons_self _ _, hval⟩
      · intro _; exact ⟨EvalError.outOfRange, rfl⟩
    | some val =>
      have hstep : (∃ w ∈ v :: rest, vars_ w.2 = none) ↔ ∃ w ∈ rest, vars_ w.2 = none := by
        constructor
        · rintro ⟨w, hw, hn⟩
          rcases List.mem_cons.mp hw with rfl | hw'
          · rw [hval] at hn; exact absurd hn (by simp)
          · exact ⟨w, hw', hn⟩
        · rintro ⟨w, hw, hn⟩
          exact ⟨w, List.mem_cons_of_mem _ hw, hn⟩
      rw [hstep]
      by_cases hne : val ≠ f v.1 0
      · simp only [if_pos hne]
        exact ih true _
      · simp only [if_neg hne]
        exact ih changed f

/-- The loop of `updateVars` reads the mapping at the visited variables only. -/
theorem updateVarsLoop_congr (N : Nat) (vars_ vars_' : TreeId → Option Val)
    (l : List (ClauseId × TreeId)) :
    ∀ (changed : Bool) (f : Buf), (∀ v ∈ l, vars_' v.2 = vars_ v.2) →
      updateVarsLoop N vars_' l changed f = updateVarsLoop N vars_ l changed f := by
  induction l with
  | nil => intro _ _ _; rfl
  | cons v rest ih =>
    intro changed f h
    have hrest : ∀ w ∈ rest, vars_' w.2 = vars_ w.2 := fun w hw => h w (List.mem_cons_of_mem _ hw)
    unfold updateVarsLoop
    rw [h v (List.mem_cons_self _ _)]
    cases vars_ v.2 with
    | none => rfl
    | some val =>
      by_cases hne : val ≠ f v.1 0
      · simp only [if_pos hne]
        exact ih true _ hrest
      · simp only [if_neg hne]
        exact ih changed f hrest

/-- C7: `updateVars` when every bound variable has an entry in the supplied mapping
(the binding table being a bijection and a row having a lane 0): it returns a flag,
which is true if and only if the stored lane-0 value of at least one bound variable
differs from its supplied value; afterwards lane 0 of the row of every bound variable
equals the supplied value; rows of clauses that are not bound variables are
unchanged. -/
theorem updateVars_spec (N : Nat) (e : ArrayEvaluator) (vars_ : TreeId → Option Val)
    (hN : 0 < N) (hwf : e.tape.WF) (hcov : ∀ v ∈ e.tape.vars, vars_ v.2 ≠ none) :
    ∃ changed, (e.updateVars N vars_).1 = Except.ok changed ∧
      (changed = true ↔ ∃ v ∈ e.tape.vars, vars_ v.2 ≠ some (e.f v.1 0)) ∧
      (∀ v ∈ e.tape.vars, vars_ v.2 = some ((e.updateVars N vars_).2.f v.1 0)) ∧
      (∀ r, (∀ v ∈ e.tape.vars, v.1 ≠ r) → ∀ i, (e.updateVars N vars_).2.f r i = e.f r i) := by
  obtain ⟨c, hc, hiff⟩ := updateVarsLoop_flag N vars_ e.tape.vars false e.f hcov
  refine ⟨c, hc, ?_, ?_, ?_⟩
  · rw [hiff]
    simp
  · exact updateVarsLoop_post N hN vars_ e.tape.vars false e.f hwf.1 hcov
  · exact fun r hr i => updateVarsLoop_frame N vars_ e.tape.vars false e.f r hr i

/-- The statement of C7 at `tapeXY` with `x = 3`, `y = 5` stored and `x = 3`, `y = 8`
supplied: the call reports a change, row 2 (`y`) now holds 8 in lane 0 and row 3,
which is no variable, is unchanged. -/
theorem updateVars_spec_witness :
    ((evalXY 3 5).updateVars 2 sampleVars).1 = Except.ok true ∧
    ((evalXY 3 5).updateVars 2 sampleVars).2.f 2 0 = 8 ∧
    ((evalXY 3 5).updateVars 2 sampleVars).2.f 3 0 = (evalXY 3 5).f 3 0 := by
  have hwf : (evalXY 3 5).tape.WF := by
    simp [Tape.WF, evalXY, tapeXY]
  have hcov : ∀ v ∈ (evalXY 3 5).tape.vars, sampleVars v.2 ≠ none := by
    intro v hv
    simp only [evalXY, tapeXY, List.mem_cons, List.mem_singleton, List.not_mem_nil,
      or_false] at hv
    rcases hv with rfl | rfl <;> simp [sampleVars]
  obtain ⟨c, hc, hiff, hpost, hframe⟩ :=
    updateVars_spec 2 (evalXY 3 5) sampleVars (by decide) hwf hcov
  have hy : ((2, 11) : ClauseId × TreeId) ∈ (evalXY 3 5).tape.vars := by
    simp [evalXY, tapeXY]
  refine ⟨?_, ?_, ?_⟩
  · rw [hc]
    have : c = true := hiff.mpr ⟨(2, 11), hy, by norm_num [sampleVars, evalXY, bufXY]⟩
    rw [this]
  · have h := hpost (2, 11) hy
    have h8 : sampleVars 11 = some 8 := by simp [sampleVars]
    rw [h8] at h
    exact (Option.some.inj h).symm
  · apply hframe
    intro v hv
    simp only [evalXY, tapeXY, List.mem_cons, List.mem_singleton, List.not_mem_nil,
      or_false] at hv
    rcases hv with rfl | rfl <;> decide

/-- C8: `updateVars` fails with an error if and only if some variable bound in the
tape has no entry in the supplied mapping; entries for identifiers that the tape does
not bind are ignored: two mappings that agree on the bound variables give the same
outcome. -/
theorem updateVars_fails_iff (N : Nat) (e : ArrayEvaluator) (vars_ : TreeId → Option Val) :
    ((∃ err, (e.updateVars N vars_).1 = Except.error err) ↔
      ∃ v ∈ e.tape.vars, vars_ v.2 = none) ∧
    (∀ vars_' : TreeId → Option Val, (∀ v ∈ e.tape.vars, vars_' v.2 = vars_ v.2) →
      e.updateVars N vars_' = e.updateVars N vars_) := by
  refine ⟨updateVarsLoop_error_iff N vars_ e.tape.vars false e.f, ?_⟩
  intro vars_' h
  simp only [ArrayEvaluator.updateVars, updateVarsLoop_congr N vars_ vars_' e.tape.vars false e.f h]

/-- The statement of C8 at `tapeXY`: a mapping without an entry for `y` makes the call
fail, and a mapping with entries for `x`, `y` and the unbound handle 99 does not. -/
theorem updateVars_fails_iff_witness :
    (∃ err, ((evalXY 3 5).updateVars 2 onlyX).1 = Except.error err) ∧
    ¬ (∃ err, ((evalXY 3 5).updateVars 2 sampleVars).1 = Except.error err) := by
  constructor
  · refine (updateVars_fails_iff 2 (evalXY 3 5) onlyX).1.mpr ⟨(2, 11), ?_, ?_⟩
    · simp [evalXY, tapeXY]
    · simp [onlyX]
  · rw [(updateVars_fails_iff 2 (evalXY 3 5) sampleVars).1]
    rintro ⟨v, hv, hn⟩
    simp only [evalXY, tapeXY, List.mem_cons, List.mem_singleton, List.not_mem_nil,
      or_false] at hv
    rcases hv with rfl | rfl <;> simp [sampleVars] at hn

/-- In a list of pairs without a repeated second component, the first pair with a
given second component is the pair that holds it. -/
theorem find_snd_of_mem (l : List (ClauseId × TreeId)) (r : ClauseId) (id : TreeId) :
    (l.map Prod.snd).Nodup → (r, id) ∈ l →
      (l.find? (fun p => p.2 = id)).map Prod.fst = some r := by
  induction l with
  | nil => intro _ h; simp at h
  | cons v rest ih =>
    intro hnd h
    rw [List.map_cons, List.nodup_cons] at hnd
    by_cases hv : v.2 = id
    · have hfind : (v :: rest).find? (fun p => decide (p.2 = id)) = some v := by
        simp [List.find?_cons, hv]
      rw [hfind]
      rcases List.mem_cons.mp h with h1 | h1
      · rw [← h1]; rfl
      · exfalso
        apply hnd.1
        rw [hv]
        exact List.mem_map_of_mem Prod.snd h1
    · have hfind : (v :: rest).find? (fun p => decide (p.2 = id)) =
          rest.find? (fun p => decide (p.2 = id)) := by
        simp [List.find?_cons, hv]
      rw [hfind]
      rcases List.mem_cons.mp h with h1 | h1
      · exact absurd (by rw [← h1]) hv
      · exact ih hnd.2 h1

/-- In a bijective binding table the right lookup of a bound handle is its row. -/
theorem rightFind_of_mem (t : Tape) (hwf : t.WF) (r : ClauseId) (id : TreeId)
    (h : (r, id) ∈ t.vars) : t.rightFind id = some r :=
  find_snd_of_mem t.vars r id hwf.2 h

/-- The right lookup of a handle that the table does not bind finds nothing. -/
theorem rightFind_of_not_mem (t : Tape) (id : TreeId) (h : ∀ v ∈ t.vars, v.2 ≠ id) :
    t.rightFind id = none := by
  unfold Tape.rightFind
  rw [Option.map_eq_none', List.find?_eq_none]
  intro v hv
  simpa using h v hv

/-- C9: `setVar(id, value)`, the binding table being a bijection and a row having a
lane 0.  If `id` is bound to clause row `r`, then afterwards `f(r,0) = value` and
every row other than `r` is unchanged; if `id` is not bound, the call changes
nothing. -/
theorem setVar_spec (N : Nat) (e : ArrayEvaluator) (id : TreeId) (value : Val)
    (hN : 0 < N) (hwf : e.tape.WF) :
    (∀ r, (r, id) ∈ e.tape.vars →
      (e.setVar N id value).f r 0 = value ∧
      ∀ r', r' ≠ r → ∀ i, (e.setVar N id value).f r' i = e.f r' i) ∧
    ((∀ v ∈ e.tape.vars, v.2 ≠ id) → e.setVar N id value = e) := by
  constructor
  · intro r hr
    have hf := rightFind_of_mem e.tape hwf r id hr
    simp only [ArrayEvaluator.setVar, hf]
    exact ⟨rowFill_same N e.f r value 0 hN, fun r' h i => rowFill_other N e.f r r' value i h⟩
  · intro h
    simp only [ArrayEvaluator.setVar, rightFind_of_not_mem e.tape id h]

/-- The statement of C9 at `tapeXY`: setting `y` (handle 11, row 2) to 8 puts 8 in
lane 0 of row 2 and keeps row 1; setting the unbound handle 99 changes nothing. -/
theorem setVar_spec_witness :
    ((evalXY 3 5).setVar 2 11 8).f 2 0 = 8 ∧
    ((evalXY 3 5).setVar 2 11 8).f 1 0 = (evalXY 3 5).f 1 0 ∧
    (evalXY 3 5).setVar 2 99 8 = evalXY 3 5 := by
  have hwf : (evalXY 3 5).tape.WF := by
    simp [Tape.WF, evalXY, tapeXY]
  have hy : ((2, 11) : ClauseId × TreeId) ∈ (evalXY 3 5).tape.vars := by
    simp [evalXY, tapeXY]
  have h1 := (setVar_spec 2 (evalXY 3 5) 11 8 (by decide) hwf).1 2 hy
  have h2 := (setVar_spec 2 (evalXY 3 5) 99 8 (by decide) hwf).2
  refine ⟨h1.1, h1.2 1 (by decide) 0, h2 ?_⟩
  intro v hv
  simp only [evalXY, tapeXY, List.mem_cons, List.mem_singleton, List.not_mem_nil,
    or_false] at hv
  rcases hv with rfl | rfl <;> decide

/-- C10, as stated, fails: with `N = 2` and row 1 (the row of `x`, handle 10) holding
`[1, 0]`, the call `setVar(x, 5)` changes lane 1 of that row from 0 to 5. -/
theorem setVar_lane_one_counterexample :
    (1, 10) ∈ evalMixed.tape.vars ∧
    evalMixed.f 1 1 = 0 ∧ (evalMixed.setVar 2 10 5).f 1 1 = 5 := by
  refine ⟨by simp [evalMixed, tapeXY], by simp [evalMixed], ?_⟩
  simp [ArrayEvaluator.setVar, Tape.rightFind, evalMixed, tapeXY, rowFill]

/-- C10, amended: `setVar` on a bound variable overwrites the whole row: after the
call every lane `i < N` of the variable's row holds the supplied value. -/
theorem setVar_fills_row (N : Nat) (e : ArrayEvaluator) (id : TreeId) (value : Val)
    (r : ClauseId) (hwf : e.tape.WF) (hr : (r, id) ∈ e.tape.vars) (i : Nat) (hi : i < N) :
    (e.setVar N id value).f r i = value := by
  simp only [ArrayEvaluator.setVar, rightFind_of_mem e.tape hwf r id hr]
  exact rowFill_same N e.f r value i hi

/-- The amended C10 at `tapeXY` with `N = 2`: lane 1 of the row of `x` holds the new
value. -/
theorem setVar_fills_row_witness : (evalMixed.setVar 2 10 5).f 1 1 = 5 :=
  setVar_fills_row 2 evalMixed 10 5 1 (by simp [Tape.WF, evalMixed, tapeXY])
    (by simp [evalMixed, tapeXY]) 1 (by decide)

/-! ## The dispatch `evalClause` -/

/-- Every dispatchable opcode other than `MOD` is one lane-wise assignment
`out = g(a, b)` over the first `count` lanes, whatever the fuel. -/
theorem evalClause_lanewise (m : Libm) (op : Opcode) (hd : op.dispatchable = true)
    (hm : op ≠ Opcode.MOD) :
    ∃ g : Val → Val → Val, ∀ (fuel : Nat) (e : ArrayEvaluator) (id a b : ClauseId),
      e.evalClause m fuel op id a b =
        Except.ok { e with
          f := headAssign e.count e.f id (fun i => g (e.f a i) (e.f b i)) } := by
  cases op
  case MOD => exact absurd rfl hm
  case ADD => exact ⟨fun x y => x + y, fun _ _ _ _ _ => rfl⟩
  case MUL => exact ⟨fun x y => x * y, fun _ _ _ _ _ => rfl⟩
  case MIN => exact ⟨fun x y => min x y, fun _ _ _ _ _ => rfl⟩
  case MAX => exact ⟨fun x y => max x y, fun _ _ _ _ _ => rfl⟩
  case SUB => exact ⟨fun x y => x - y, fun _ _ _ _ _ => rfl⟩
  case DIV => exact ⟨fun x y => x / y, fun _ _ _ _ _ => rfl⟩
  case ATAN2 => exact ⟨m.atan2, fun _ _ _ _ _ => rfl⟩
  case POW => exact ⟨m.pow, fun _ _ _ _ _ => rfl⟩
  case NTH_ROOT => exact ⟨fun x y => m.pow x (1 / y), fun _ _ _ _ _ => rfl⟩
  case NANFILL => exact ⟨fun x y => if isNaN x then y else x, fun _ _ _ _ _ => rfl⟩
  case SQUARE => exact ⟨fun x _ => x * x, fun _ _ _ _ _ => rfl⟩
  case SQRT => exact ⟨fun x _ => m.sqrt x, fun _ _ _ _ _ => rfl⟩
  case NEG => exact ⟨fun x _ => -x, fun _ _ _ _ _ => rfl⟩
  case SIN => exact ⟨fun x _ => m.sin x, fun _ _ _ _ _ => rfl⟩
  case COS => exact ⟨fun x _ => m.cos x, fun _ _ _ _ _ => rfl⟩
  case TAN => exact ⟨fun x _ => m.tan x, fun _ _ _ _ _ => rfl⟩
  case ASIN => exact ⟨fun x _ => m.asin x, fun _ _ _ _ _ => rfl⟩
  case ACOS => exact ⟨fun x _ => m.acos x, fun _ _ _ _ _ => rfl⟩
  case ATAN => exact ⟨fun x _ => m.atan x, fun _ _ _ _ _ => rfl⟩
  case EXP => exact ⟨fun x _ => m.exp x, fun _ _ _ _ _ => rfl⟩
  case ABS => exact ⟨fun x _ => |x|, fun _ _ _ _ _ => rfl⟩
  case RECIP => exact ⟨fun x _ => 1 / x, fun _ _ _ _ _ => rfl⟩
  case CONST_VAR => exact ⟨fun x _ => x, fun _ _ _ _ _ => rfl⟩
  all_goals exact absurd hd (by decide)

/-- The opcodes of the `assert(false)` group fail, whatever the state. -/
theorem evalClause_not_dispatchable (m : Libm) (fuel : Nat) (e : ArrayEvaluator)
    (op : Opcode) (id a b : ClauseId) (hd : op.dispatchable = false) :
    e.evalClause m fuel op id a b = Except.error EvalError.assertFalse := by
  cases op <;> first | rfl | exact absurd hd (by decide)

/-- The `MOD` case in terms of its loop. -/
theorem evalClause_mod_ok (m : Libm) (fuel : Nat) (e e' : ArrayEvaluator)
    (id a b : ClauseId) (h : e.evalClause m fuel Opcode.MOD id a b = Except.ok e') :
    ∃ f', forLanes (modLane fuel id a b) e.count e.f = Except.ok f' ∧
      e' = { e with f := f' } := by
  simp only [ArrayEvaluator.evalClause] at h
  cases hf : forLanes (modLane fuel id a b) e.count e.f with
  | error err => rw [hf] at h; simp at h
  | ok f' =>
    rw [hf] at h
    simp only [Except.ok.injEq] at h
    exact ⟨f', rfl, h.symm⟩

/-- A clause evaluation that returns has changed nothing but lanes `[0, count)` of row
`id`; the tape and the count are as before. -/
theorem evalClause_frame (m : Libm) (fuel : Nat) (e e' : ArrayEvaluator) (op : Opcode)
    (id a b : ClauseId) (h : e.evalClause m fuel op id a b = Except.ok e') :
    e'.tape = e.tape ∧ e'.count = e.count ∧
      ∀ r i, (r ≠ id ∨ e.count ≤ i) → e'.f r i = e.f r i := by
  by_cases hm : op = Opcode.MOD
  · subst hm
    obtain ⟨f', hf, rfl⟩ := evalClause_mod_ok m fuel e e' id a b h
    exact ⟨rfl, rfl, fun r i hri => forLanes_modLane_frame fuel id a b e.count e.f f' hf r i hri⟩
  · cases hd : op.dispatchable with
    | false => rw [evalClause_not_dispatchable m fuel e op id a b hd] at h; simp at h
    | true =>
      obtain ⟨g, hg⟩ := evalClause_lanewise m op hd hm
      rw [hg fuel e id a b] at h
      simp only [Except.ok.injEq] at h
      subst h
      refine ⟨rfl, rfl, fun r i hri => ?_⟩
      have : ¬ (r = id ∧ i < e.count) := by
        rintro ⟨h1, h2⟩
        rcases hri with h3 | h3
        · exact h3 h1
        · omega
      simp [headAssign, this]

/-- The `MOD` case fails only by exhausting the fuel of its loop. -/
theorem evalClause_mod_error (m : Libm) (fuel : Nat) (e : ArrayEvaluator)
    (id a b : ClauseId) (err : EvalError)
    (h : e.evalClause m fuel Opcode.MOD id a b = Except.error err) :
    err = EvalError.outOfFuel := by
  simp only [ArrayEvaluator.evalClause] at h
  cases hf : forLanes (modLane fuel id a b) e.count e.f with
  | error err' =>
    rw [hf] at h
    simp only [Except.error.injEq] at h
    rw [← h]
    exact forLanes_modLane_error fuel id a b e.count e.f err' hf
  | ok f' => rw [hf] at h; simp at h

theorem fmod_neg5_neg2 : fmod (-5) (-2) = -1 := by
  have h : ⌊((-5 : ℚ) / (-2))⌋ = 2 := Int.floor_eq_iff.mpr ⟨by norm_num, by norm_num⟩
  have hq : (0 : ℚ) ≤ (-5 : ℚ) / (-2) := by norm_num
  unfold fmod trunc
  rw [if_pos hq, h]
  norm_num

/-- C12: the opcode dispatch.  `evalClause` raises the internal-consistency failure if
and only if the opcode is one of `INVALID`, `CONST`, `VAR_X`, `VAR_Y`, `VAR_Z`, `VAR`,
`LAST_OP`; every other opcode except `MOD` succeeds for every state; `MOD` is
dispatched too, but at `a = -5`, `b = -2` its evaluation does not succeed, whatever
the fuel. -/
theorem evalClause_dispatch (m : Libm) :
    (∀ (fuel : Nat) (e : ArrayEvaluator) (op : Opcode) (id a b : ClauseId),
      e.evalClause m fuel op id a b = Except.error EvalError.assertFalse ↔
        op ∈ [Opcode.INVALID, Opcode.CONST, Opcode.VAR_X, Opcode.VAR_Y, Opcode.VAR_Z,
          Opcode.VAR, Opcode.LAST_OP]) ∧
    (∀ (fuel : Nat) (e : ArrayEvaluator) (op : Opcode) (id a b : ClauseId),
      op ∉ [Opcode.INVALID, Opcode.CONST, Opcode.VAR_X, Opcode.VAR_Y, Opcode.VAR_Z,
          Opcode.VAR, Opcode.LAST_OP] → op ≠ Opcode.MOD →
        ∃ e', e.evalClause m fuel op id a b = Except.ok e' ∧
          ∀ r i, (r ≠ id ∨ e.count ≤ i) → e'.f r i = e.f r i) ∧
    (∀ fuel : Nat, (evalXC (-5) (-2)).evalClause m fuel Opcode.MOD 3 1 2 =
      Except.error EvalError.outOfFuel) := by
  have hset : ∀ op : Opcode, op.dispatchable = false ↔
      op ∈ [Opcode.INVALID, Opcode.CONST, Opcode.VAR_X, Opcode.VAR_Y, Opcode.VAR_Z,
        Opcode.VAR, Opcode.LAST_OP] := by
    intro op
    cases op <;> simp [Opcode.dispatchable]
  refine ⟨?_, ?_, ?_⟩
  · intro fuel e op id a b
    rw [← hset]
    constructor
    · intro h
      by_contra hd
      have hd' : op.dispatchable = true := by
        cases hx : op.dispatchable with
        | true => rfl
        | false => exact absurd hx hd
      by_cases hm : op = Opcode.MOD
      · subst hm
        have := evalClause_mod_error m fuel e id a b _ h
        exact absurd this (by decide)
      · obtain ⟨g, hg⟩ := evalClause_lanewise m op hd' hm
        rw [hg fuel e id a b] at h
        simp at h
    · exact evalClause_not_dispatchable m fuel e op id a b
  · intro fuel e op id a b hleaf hm
    have hd : op.dispatchable = true := by
      cases hx : op.dispatchable with
      | true => rfl
      | false => exact absurd ((hset op).mp hx) hleaf
    obtain ⟨g, hg⟩ := evalClause_lanewise m op hd hm
    refine ⟨_, hg fuel e id a b, ?_⟩
    exact (evalClause_frame m fuel e _ op id a b (hg fuel e id a b)).2.2
  · intro fuel
    have hb : (evalXC (-5) (-2)).f 2 0 < 0 := by norm_num [evalXC, bufXY]
    have hm : fmod ((evalXC (-5) (-2)).f 1 0) ((evalXC (-5) (-2)).f 2 0) < 0 := by
      have h1 : (evalXC (-5) (-2)).f 1 0 = -5 := by norm_num [evalXC, bufXY]
      have h2 : (evalXC (-5) (-2)).f 2 0 = -2 := by norm_num [evalXC, bufXY]
      rw [h1, h2, fmod_neg5_neg2]
      norm_num
    have h := forLanes_modLane_diverges fuel 3 1 2 0 (evalXC (-5) (-2)).f hb hm 1 (by omega)
    have hc : (evalXC (-5) (-2)).count = 1 := rfl
    simp only [ArrayEvaluator.evalClause, hc, h]

/-- C16: `MIN` and `MAX` are the lane-wise minimum and maximum.  For every state,
`evalClause` with `MIN` (with `MAX`) returns and lane `i < count` of row `id` holds
`min(f(a,i), f(b,i))` (`max(f(a,i), f(b,i))`); and the buffer it produces is the same
for any evaluator with the same buffer and count, whatever its tape, so it does not
depend on the specialization or on a decision of `check`. -/
theorem min_max_lanewise (m : Libm) (fuel : Nat) (e : ArrayEvaluator) (id a b : ClauseId) :
    (∃ e', e.evalClause m fuel Opcode.MIN id a b = Except.ok e' ∧
      ∀ i, i < e.count → e'.f id i = min (e.f a i) (e.f b i)) ∧
    (∃ e', e.evalClause m fuel Opcode.MAX id a b = Except.ok e' ∧
      ∀ i, i < e.count → e'.f id i = max (e.f a i) (e.f b i)) ∧
    (∀ (op : Opcode) (e2 : ArrayEvaluator), op = Opcode.MIN ∨ op = Opcode.MAX →
      e2.f = e.f → e2.count = e.count →
      (e2.evalClause m fuel op id a b).map ArrayEvaluator.f =
        (e.evalClause m fuel op id a b).map ArrayEvaluator.f) := by
  refine ⟨⟨_, rfl, fun i hi => ?_⟩, ⟨_, rfl, fun i hi => ?_⟩, ?_⟩
  · simp [headAssign, hi]
  · simp [headAssign, hi]
  · rintro op e2 (rfl | rfl) hf hc
    · simp [ArrayEvaluator.evalClause, Except.map, hf, hc]
    · simp [ArrayEvaluator.evalClause, Except.map, hf, hc]

/-- The statement of C16 on the mixed batch (rows `[1, 0]` and `[0, 1]`, two lanes):
the maximum is `[1, 1]`. -/
theorem min_max_lanewise_witness :
    ∃ e', evalMixed.evalClause Libm.sample 0 Opcode.MAX 3 1 2 = Except.ok e' ∧
      e'.f 3 0 = 1 ∧ e'.f 3 1 = 1 := by
  obtain ⟨e', he, hl⟩ := (min_max_lanewise Libm.sample 0 evalMixed 3 1 2).2.1
  refine ⟨e', he, ?_, ?_⟩
  · rw [hl 0 (by decide)]; simp [evalMixed]
  · rw [hl 1 (by decide)]; simp [evalMixed]

/-- C19: the frame of one clause evaluation.  For a dispatchable opcode, a clause
evaluation that returns has changed only lanes `[0, count)` of row `id`: every other
row and lanes `[count, ...)` of row `id` hold their previous values; and every
opcode other than `MOD` does return. -/
theorem evalClause_changes_only_out (m : Libm) (fuel : Nat) (e : ArrayEvaluator)
    (op : Opcode) (id a b : ClauseId) (hd : op.dispatchable = true) :
    (∀ e', e.evalClause m fuel op id a b = Except.ok e' →
      ∀ r i, (r ≠ id ∨ e.count ≤ i) → e'.f r i = e.f r i) ∧
    (op ≠ Opcode.MOD → ∃ e', e.evalClause m fuel op id a b = Except.ok e') := by
  refine ⟨fun e' h => (evalClause_frame m fuel e e' op id a b h).2.2, fun hm => ?_⟩
  obtain ⟨g, hg⟩ := evalClause_lanewise m op hd hm
  exact ⟨_, hg fuel e id a b⟩

/-- The statement of C19 at `SQUARE` over the three-lane batch `[-2, 0, 2]`: the
operand row 1 keeps `-2` in lane 0 and lane 3 of the output row 2 keeps its value. -/
theorem evalClause_changes_only_out_witness :
    ∃ e', evalSquare3.evalClause Libm.sample 0 Opcode.SQUARE 2 1 0 = Except.ok e' ∧
      e'.f 1 0 = evalSquare3.f 1 0 ∧ e'.f 2 3 = evalSquare3.f 2 3 := by
  have h := evalClause_changes_only_out Libm.sample 0 evalSquare3 Opcode.SQUARE 2 1 0 rfl
  obtain ⟨e', he⟩ := h.2 (by decide)
  exact ⟨e', he, h.1 e' he 1 0 (Or.inl (by decide)), h.1 e' he 2 3 (Or.inr (by decide))⟩

/-! ## Lanes are independent -/

theorem setLane_operand (f g : Buf) (id b : ClauseId) (i j : Nat) (v : Val)
    (hb : f b i = g b j) : setLane f id i v b i = setLane g id j v b j := by
  by_cases h : b = id
  · simp [setLane, h]
  · simp [setLane, h, hb]

/-- The `while` loop of `MOD` at lane `i` of one buffer and at lane `j` of another: if
the output lanes agree and the divisor lanes agree, then the second run returns
whenever the first does, with the same output lane. -/
theorem modWhile_sim (id b : ClauseId) (i j : Nat) (fuel : Nat) :
    ∀ f g : Buf, f id i = g id j → f b i = g b j →
      ∀ f', modWhile id b i fuel f = Except.ok f' →
        ∃ g', modWhile id b j fuel g = Except.ok g' ∧ f' id i = g' id j := by
  induction fuel with
  | zero =>
    intro f g hid _ f' h
    by_cases hn : f id i < 0
    · simp [modWhile, hn] at h
    · simp only [modWhile, if_neg hn, Except.ok.injEq] at h
      have hn' : ¬ g id j < 0 := by rw [← hid]; exact hn
      exact ⟨g, by simp only [modWhile, if_neg hn'], by rw [← h]; exact hid⟩
  | succ n ih =>
    intro f g hid hb f' h
    by_cases hn : f id i < 0
    · have hn' : g id j < 0 := by rw [← hid]; exact hn
      rw [modWhile, if_pos hn] at h
      rw [modWhile, if_pos hn']
      have hv : f id i + f b i = g id j + g b j := by rw [hid, hb]
      apply ih _ _ _ _ f' h
      · rw [setLane_same, setLane_same, hv]
      · rw [hv]; exact setLane_operand f g id b i j _ hb
    · simp only [modWhile, if_neg hn, Except.ok.injEq] at h
      have hn' : ¬ g id j < 0 := by rw [← hid]; exact hn
      exact ⟨g, by simp only [modWhile, if_neg hn'], by rw [← h]; exact hid⟩

/-- The body of the `MOD` loop at lane `i` of one buffer and at lane `j` of another
with the same operand values: the second run returns whenever the first does, with
the same output lane. -/
theorem modLane_sim (fuel : Nat) (id a b : ClauseId) (i j : Nat) (f g : Buf)
    (ha : f a i = g a j) (hb : f b i = g b j) (f' : Buf)
    (h : modLane fuel id a b i f = Except.ok f') :
    ∃ g', modLane fuel id a b j g = Except.ok g' ∧ f' id i = g' id j := by
  unfold modLane at h ⊢
  rw [← ha, ← hb]
  apply modWhile_sim id b i j fuel _ _ _ _ f' h
  · rw [setLane_same, setLane_same]
  · exact setLane_operand f g id b i j _ hb

/-- Inversion of the `for` loop of `MOD` at its last lane. -/
theorem forLanes_succ_ok (body : Nat → Buf → Except EvalError Buf) (n : Nat) (f f' : Buf)
    (h : forLanes body (n + 1) f = Except.ok f') :
    ∃ fn, forLanes body n f = Except.ok fn ∧ body n fn = Except.ok f' := by
  rw [forLanes] at h
  cases hn : forLanes body n f with
  | error err => rw [hn] at h; simp [Except.bind] at h
  | ok fn => rw [hn] at h; exact ⟨fn, rfl, h⟩

/-- The output lane `i` after the whole `for` loop of `MOD` is the one the body of the
loop computes at lane `i` from the initial buffer. -/
theorem forLanes_modLane_lane (fuel : Nat) (id a b : ClauseId) :
    ∀ (n : Nat) (f f' : Buf), forLanes (modLane fuel id a b) n f = Except.ok f' →
      ∀ i, i < n → ∃ fi, modLane fuel id a b i f = Except.ok fi ∧ fi id i = f' id i := by
  intro n
  induction n with
  | zero => intro _ _ _ i hi; omega
  | succ n ih =>
    intro f f' h i hi
    obtain ⟨fn, hfn, hbody⟩ := forLanes_succ_ok _ n f f' h
    have hlast : ∀ r j, (r ≠ id ∨ j ≠ n) → f' r j = fn r j := by
      intro r j hrj
      rw [modWhile_frame id b n fuel _ f' hbody r j hrj]
      have : ¬ (r = id ∧ j = n) := by
        rintro ⟨h1, h2⟩
        rcases hrj with h3 | h3
        · exact h3 h1
        · exact h3 h2
      simp [setLane, this]
    by_cases hin : i < n
    · obtain ⟨fi, hfi, heq⟩ := ih f fn hfn i hin
      exact ⟨fi, hfi, by rw [heq, hlast id i (Or.inr (by omega))]⟩
    · have hi' : i = n := by omega
      subst hi'
      have hfr : ∀ r, fn r i = f r i := fun r =>
        forLanes_modLane_frame fuel id a b i f fn hfn r i (Or.inr (le_refl i))
      obtain ⟨g', hg', heq⟩ := modLane_sim fuel id a b i i fn f (hfr a) (hfr b) f' hbody
      exact ⟨g', hg', heq.symm⟩

/-- The `for` loop of `MOD` on two buffers whose operand rows agree on the lanes below
`n`: the second run returns whenever the first does, with the same output lanes. -/
theorem forLanes_modLane_sim (fuel : Nat) (id a b : ClauseId) (f g : Buf) :
    ∀ n : Nat, (∀ i, i < n → f a i = g a i ∧ f b i = g b i) →
      ∀ f', forLanes (modLane fuel id a b) n f = Except.ok f' →
        ∃ g', forLanes (modLane fuel id a b) n g = Except.ok g' ∧
          ∀ i, i < n → f' id i = g' id i := by
  intro n
  induction n with
  | zero => intro _ f' _; exact ⟨g, rfl, fun i hi => by omega⟩
  | succ n ih =>
    intro hag f' h
    obtain ⟨fn, hfn, hbody⟩ := forLanes_succ_ok _ n f f' h
    obtain ⟨gn, hgn, hagn⟩ := ih (fun i hi => hag i (Nat.lt_succ_of_lt hi)) fn hfn
    have hf : ∀ r, fn r n = f r n := fun r =>
      forLanes_modLane_frame fuel id a b n f fn hfn r n (Or.inr (le_refl n))
    have hg : ∀ r, gn r n = g r n := fun r =>
      forLanes_modLane_frame fuel id a b n g gn hgn r n (Or.inr (le_refl n))
    have han := hag n (Nat.lt_succ_self n)
    obtain ⟨g', hg', heq⟩ := modLane_sim fuel id a b n n fn gn
      (by rw [hf a, hg a]; exact han.1) (by rw [hf b, hg b]; exact han.2) f' hbody
    refine ⟨g', by rw [forLanes, hgn]; exact hg', ?_⟩
    intro i hi
    by_cases hin : i < n
    · have h1 : f' id i = fn id i := by
        rw [modWhile_frame id b n fuel _ f' hbody id i (Or.inr (by omega))]
        have hne : i ≠ n := by omega
        simp [setLane, hne]
      have h2 : g' id i = gn id i := by
        rw [modWhile_frame id b n fuel _ g' hg' id i (Or.inr (by omega))]
        have hne : i ≠ n := by omega
        simp [setLane, hne]
      rw [h1, h2]; exact hagn i hin
    · have hi' : i = n := by omega
      subst hi'
      exact heq

/-- C17: lanes are independent.  For a dispatchable opcode and a lane `i < count`, the
value a clause evaluation writes to lane `i` of row `id` is the value a `count = 1`
evaluation writes to lane 0 from any state whose lane 0 of the operand rows holds the
values of lane `i`: it depends on lane `i` of the operand rows only.  Every opcode
other than `MOD` does return. -/
theorem lanes_independent (m : Libm) (fuel : Nat) (e e1 : ArrayEvaluator) (op : Opcode)
    (id a b : ClauseId) (i : Nat) (hd : op.dispatchable = true) (hi : i < e.count)
    (h1 : e1.count = 1) (ha : e1.f a 0 = e.f a i) (hb : e1.f b 0 = e.f b i) :
    (∀ e', e.evalClause m fuel op id a b = Except.ok e' →
      ∃ e1', e1.evalClause m fuel op id a b = Except.ok e1' ∧ e'.f id i = e1'.f id 0) ∧
    (op ≠ Opcode.MOD → ∃ e', e.evalClause m fuel op id a b = Except.ok e') := by
  by_cases hm : op = Opcode.MOD
  · subst hm
    refine ⟨fun e' h => ?_, fun hne => absurd rfl hne⟩
    obtain ⟨f', hf, rfl⟩ := evalClause_mod_ok m fuel e e' id a b h
    obtain ⟨fi, hfi, heq⟩ := forLanes_modLane_lane fuel id a b e.count e.f f' hf i hi
    obtain ⟨g', hg', hlane⟩ := modLane_sim fuel id a b i 0 e.f e1.f ha.symm hb.symm fi hfi
    have hfor : forLanes (modLane fuel id a b) e1.count e1.f = Except.ok g' := by
      rw [h1]
      exact hg'
    refine ⟨{ e1 with f := g' }, ?_, ?_⟩
    · simp only [ArrayEvaluator.evalClause, hfor]
    · show f' id i = g' id 0
      rw [← heq, hlane]
  · obtain ⟨g, hg⟩ := evalClause_lanewise m op hd hm
    refine ⟨fun e' h => ?_, fun _ => ⟨_, hg fuel e id a b⟩⟩
    rw [hg fuel e id a b] at h
    simp only [Except.ok.injEq] at h
    subst h
    refine ⟨_, hg fuel e1 id a b, ?_⟩
    simp [headAssign, hi, h1, ha, hb]

/-- The scenario of C17: `SQUARE` over the lanes `[-2, 0, 2]` with `count = 3` yields
`[4, 0, 4]`, each lane being what the single-lane evaluation gives. -/
theorem lanes_independent_witness :
    ∃ e', evalSquare3.evalClause Libm.sample 0 Opcode.SQUARE 2 1 0 = Except.ok e' ∧
      e'.f 2 0 = 4 ∧ e'.f 2 1 = 0 ∧ e'.f 2 2 = 4 := by
  have hsq : ∀ (x : Val) (i : Nat), i < evalSquare3.count → evalSquare3.f 1 i = x →
      ∀ e', evalSquare3.evalClause Libm.sample 0 Opcode.SQUARE 2 1 0 = Except.ok e' →
        e'.f 2 i = x * x := by
    intro x i hi hx e' he
    obtain ⟨e1', he1, heq⟩ :=
      (lanes_independent Libm.sample 0 evalSquare3 (evalSquare1 x) Opcode.SQUARE 2 1 0 i
        rfl hi rfl (by rw [hx]; simp [evalSquare1, bufXY])
        (by simp [evalSquare1, evalSquare3, bufXY])).1 e' he
    rw [heq]
    simp only [ArrayEvaluator.evalClause, Except.ok.injEq] at he1
    rw [← he1]
    simp [headAssign, evalSquare1, bufXY]
  refine ⟨_, rfl, ?_, ?_, ?_⟩
  · rw [hsq (-2) 0 (by decide) (by simp [evalSquare3]) _ rfl]; norm_num
  · rw [hsq 0 1 (by decide) (by simp [evalSquare3]) _ rfl]; norm_num
  · rw [hsq 2 2 (by decide) (by simp [evalSquare3]) _ rfl]; norm_num

/-! ## The walk: `values`, `eval`, `evalAndPush` -/

/-- A walk that returns has kept the tape and the count, and has changed nothing but
lanes `[0, count)` of the rows of the clauses it computed. -/
theorem walkClauses_frame (m : Libm) (fuel : Nat) (cs : List Clause) :
    ∀ e e' : ArrayEvaluator, walkClauses m fuel cs e = Except.ok e' →
      e'.tape = e.tape ∧ e'.count = e.count ∧
        ∀ r i, (r ∉ writtenRows cs ∨ e.count ≤ i) → e'.f r i = e.f r i := by
  induction cs with
  | nil =>
    intro e e' h
    simp only [walkClauses, Except.ok.injEq] at h
    subst h
    exact ⟨rfl, rfl, fun _ _ _ => rfl⟩
  | cons c rest ih =>
    intro e e' h
    rw [walkClauses] at h
    cases hc : e.evalClause m fuel c.op c.id c.a c.b with
    | error err => rw [hc] at h; simp at h
    | ok e1 =>
      rw [hc] at h
      obtain ⟨ht1, hc1, hf1⟩ := evalClause_frame m fuel e e1 c.op c.id c.a c.b hc
      obtain ⟨ht2, hc2, hf2⟩ := ih e1 e' h
      refine ⟨ht2.trans ht1, hc2.trans hc1, fun r i hri => ?_⟩
      have h2 : r ∉ writtenRows rest ∨ e1.count ≤ i := by
        rcases hri with h3 | h3
        · exact Or.inl (fun hmem => h3 (by simp [writtenRows] at hmem ⊢; exact Or.inr hmem))
        · exact Or.inr (by rw [hc1]; exact h3)
      have h1 : r ≠ c.id ∨ e.count ≤ i := by
        rcases hri with h3 | h3
        · exact Or.inl (fun heq => h3 (by simp [writtenRows, heq]))
        · exact Or.inr h3
      rw [hf2 r i h2, hf1 r i h1]

/-- A walk over dispatchable clauses other than `MOD` returns. -/
theorem walkClauses_ok (m : Libm) (fuel : Nat) (cs : List Clause) :
    ∀ e : ArrayEvaluator, (∀ c ∈ cs, c.op.dispatchable = true ∧ c.op ≠ Opcode.MOD) →
      ∃ e', walkClauses m fuel cs e = Except.ok e' := by
  induction cs with
  | nil => intro e _; exact ⟨e, rfl⟩
  | cons c rest ih =>
    intro e h
    obtain ⟨hd, hm⟩ := h c (List.mem_cons_self _ _)
    obtain ⟨g, hg⟩ := evalClause_lanewise m c.op hd hm
    rw [walkClauses, hg fuel e c.id c.a c.b]
    exact ih _ (fun c' hc' => h c' (List.mem_cons_of_mem _ hc'))

/-- The method `eval` in terms of the walk of the active order. -/
theorem eval_ok_iff (m : Libm) (fuel : Nat) (e : ArrayEvaluator) (pt : Vec3) (out : Val)
    (e' : ArrayEvaluator) :
    e.eval m fuel pt = Except.ok (out, e') ↔
      walkClauses m fuel e.tape.active { tape := e.tape, f := (e.set pt 0).f, count := 1 } =
        Except.ok e' ∧ out = e'.f e.tape.root 0 := by
  have hdef : e.eval m fuel pt =
      (match walkClauses m fuel e.tape.active
          { tape := e.tape, f := (e.set pt 0).f, count := 1 } with
        | Except.error err => Except.error err
        | Except.ok e2 => Except.ok (e2.f e.tape.root 0, e2)) := by
    simp only [ArrayEvaluator.eval, ArrayEvaluator.values, Tape.walk]
    have ht : (e.set pt 0).tape = e.tape := rfl
    rw [ht]
    cases walkClauses m fuel e.tape.active
        { tape := e.tape, f := (e.set pt 0).f, count := 1 } with
    | error err => rfl
    | ok e2 => rfl
  rw [hdef]
  cases walkClauses m fuel e.tape.active
      { tape := e.tape, f := (e.set pt 0).f, count := 1 } with
  | error err => simp
  | ok e2 =>
    simp only [Except.ok.injEq, Prod.mk.injEq]
    constructor
    · rintro ⟨h1, h2⟩
      subst h2
      exact ⟨rfl, h1.symm⟩
    · rintro ⟨h1, h2⟩
      subst h1
      exact ⟨h2.symm, rfl⟩

/-- C18: `evalAndPush(pt)` returns the scalar that `eval(pt)` returns from the same
state, whatever the push does: the value is lane 0 of the root row after the walk of
the active order that was current before the push, and the push is applied to the
evaluator afterwards. -/
theorem evalAndPush_returns_eval (m : Libm) (fuel : Nat)
    (push : ArrayEvaluator → ArrayEvaluator) (e : ArrayEvaluator) (pt : Vec3) :
    (e.evalAndPush m fuel push pt).map Prod.fst = (e.eval m fuel pt).map Prod.fst ∧
    ∀ out e', e.eval m fuel pt = Except.ok (out, e') →
      walkClauses m fuel e.tape.active { tape := e.tape, f := (e.set pt 0).f, count := 1 } =
        Except.ok e' ∧
      out = e'.f e.tape.root 0 ∧
      e.evalAndPush m fuel push pt = Except.ok (out, push e') := by
  constructor
  · unfold ArrayEvaluator.evalAndPush
    cases e.eval m fuel pt with
    | error err => rfl
    | ok p => rfl
  · intro out e' h
    have hpush : e.evalAndPush m fuel push pt = Except.ok (out, push e') := by
      unfold ArrayEvaluator.evalAndPush
      rw [h]
    obtain ⟨hw, ho⟩ := (eval_ok_iff m fuel e pt out e').mp h
    exact ⟨hw, ho, hpush⟩

/-- The scenario of C18 on `max(x, y)` at `(3, 5)`: `evalAndPush` returns 5, here with
a push that resets the count. -/
theorem evalAndPush_returns_eval_witness :
    (evalMax.evalAndPush Libm.sample 0 (fun e => { e with count := 0 })
      { x := 3, y := 5, z := 0 }).map Prod.fst = Except.ok 5 := by
  rw [(evalAndPush_returns_eval Libm.sample 0 (fun e => { e with count := 0 }) evalMax
    { x := 3, y := 5, z := 0 }).1]
  have h : evalMax.eval Libm.sample 0 { x := 3, y := 5, z := 0 } =
      Except.ok (max ((evalMax.set { x := 3, y := 5, z := 0 } 0).f 1 0)
          ((evalMax.set { x := 3, y := 5, z := 0 } 0).f 2 0), _) :=
    (eval_ok_iff Libm.sample 0 evalMax { x := 3, y := 5, z := 0 } _ _).mpr
      ⟨rfl, by simp [headAssign, evalMax, tapeMax]⟩
  rw [h]
  norm_num [Except.map, ArrayEvaluator.set, setLane, evalMax, tapeMax]

/-! ## Construction -/

theorem constructConsts_frame (N : Nat) (l : List (ClauseId × Val)) :
    ∀ (f : Buf) (r : ClauseId), (∀ c ∈ l, c.1 ≠ r) →
      ∀ i, constructConsts N l f r i = f r i := by
  induction l with
  | nil => intro f r _ i; rfl
  | cons c rest ih =>
    intro f r h i
    rw [constructConsts, ih _ r (fun c' hc' => h c' (List.mem_cons_of_mem _ hc')) i]
    exact rowFill_other N f c.1 r c.2 i (Ne.symm (h c (List.mem_cons_self _ _)))

theorem constructConsts_post (N : Nat) (l : List (ClauseId × Val)) :
    ∀ f : Buf, (l.map Prod.fst).Nodup →
      ∀ c ∈ l, ∀ i, i < N → constructConsts N l f c.1 i = c.2 := by
  induction l with
  | nil => intro _ _ c hc; simp at hc
  | cons c0 rest ih =>
    intro f hnd c hc i hi
    rw [List.map_cons, List.nodup_cons] at hnd
    rw [constructConsts]
    rcases List.mem_cons.mp hc with rfl | hc'
    · rw [constructConsts_frame N rest _ c.1
        (fun c' hc' heq => hnd.1 (heq ▸ List.mem_map_of_mem Prod.fst hc')) i]
      exact rowFill_same N f c.1 c.2 i hi
    · exact ih _ hnd.2 c hc' i hi

/-- A successful right lookup names a pair of the table. -/
theorem mem_of_rightFind (t : Tape) (id : TreeId) (r : ClauseId)
    (h : t.rightFind id = some r) : (r, id) ∈ t.vars := by
  unfold Tape.rightFind at h
  cases hf : t.vars.find? (fun p => decide (p.2 = id)) with
  | none => rw [hf] at h; simp at h
  | some p =>
    rw [hf] at h
    simp only [Option.map_some', Option.some.injEq] at h
    have hp := List.find?_some hf
    have hmem := List.mem_of_find?_eq_some hf
    simp only [decide_eq_true_eq] at hp
    rw [← h, ← hp]
    exact hmem

/-- In a bijective binding table a row is bound to one handle only. -/
theorem handle_unique (t : Tape) (hwf : t.WF) (r : ClauseId) (id1 id2 : TreeId)
    (h1 : (r, id1) ∈ t.vars) (h2 : (r, id2) ∈ t.vars) : id1 = id2 := by
  have key : ∀ l : List (ClauseId × TreeId), (l.map Prod.fst).Nodup →
      (r, id1) ∈ l → (r, id2) ∈ l → id1 = id2 := by
    intro l
    induction l with
    | nil => intro _ h; simp at h
    | cons p rest ih =>
      intro hnd h1 h2
      rw [List.map_cons, List.nodup_cons] at hnd
      rcases List.mem_cons.mp h1 with e1 | m1
      · rcases List.mem_cons.mp h2 with e2 | m2
        · have := e1.trans e2.symm
          exact (Prod.mk.inj this).2
        · exact absurd (List.mem_map_of_mem Prod.fst m2) (by rw [← e1] at hnd; exact hnd.1)
      · rcases List.mem_cons.mp h2 with e2 | m2
        · exact absurd (List.mem_map_of_mem Prod.fst m1) (by rw [← e2] at hnd; exact hnd.1)
        · exact ih hnd.2 m1 m2
  exact key t.vars hwf.1 h1 h2

theorem constructVars_frame (N : Nat) (t : Tape) (l : List (TreeId × Val)) :
    ∀ f f' : Buf, constructVars N t l f = Except.ok f' →
      ∀ r, (∀ v ∈ l, t.rightFind v.1 ≠ some r) → ∀ i, f' r i = f r i := by
  induction l with
  | nil =>
    intro f f' h r _ i
    simp only [constructVars, Except.ok.injEq] at h
    rw [← h]
  | cons v rest ih =>
    intro f f' h r hr i
    rw [constructVars] at h
    cases hf : t.rightFind v.1 with
    | none => rw [hf] at h; simp at h
    | some r0 =>
      rw [hf] at h
      rw [ih _ f' h r (fun w hw => hr w (List.mem_cons_of_mem _ hw)) i]
      have hne : r ≠ r0 := by
        intro heq
        exact hr v (List.mem_cons_self _ _) (by rw [hf, heq])
      exact rowFill_other N f r0 r v.2 i hne

theorem constructVars_ok (N : Nat) (t : Tape) (l : List (TreeId × Val)) :
    ∀ f : Buf, (∀ v ∈ l, t.rightFind v.1 ≠ none) → ∃ f', constructVars N t l f = Except.ok f' := by
  induction l with
  | nil => intro f _; exact ⟨f, rfl⟩
  | cons v rest ih =>
    intro f h
    rw [constructVars]
    cases hf : t.rightFind v.1 with
    | none => exact absurd hf (h v (List.mem_cons_self _ _))
    | some r0 => exact ih _ (fun w hw => h w (List.mem_cons_of_mem _ hw))

theorem constructVars_post (N : Nat) (t : Tape) (hwf : t.WF) (l : List (TreeId × Val)) :
    ∀ f f' : Buf, (l.map Prod.fst).Nodup → constructVars N t l f = Except.ok f' →
      ∀ v ∈ l, ∀ r, (r, v.1) ∈ t.vars → ∀ i, i < N → f' r i = v.2 := by
  induction l with
  | nil => intro _ _ _ _ v hv; simp at hv
  | cons v0 rest ih =>
    intro f f' hnd h v hv r hr i hi
    rw [List.map_cons, List.nodup_cons] at hnd
    rw [constructVars] at h
    cases hf : t.rightFind v0.1 with
    | none => rw [hf] at h; simp at h
    | some r0 =>
      rw [hf] at h
      rcases List.mem_cons.mp hv with rfl | hv'
      · have hr0 : r0 = r := by
          have := rightFind_of_mem t hwf r v.1 hr
          rw [hf] at this
          exact Option.some.inj this
        subst hr0
        rw [constructVars_frame N t rest _ f' h r0 ?_ i]
        · exact rowFill_same N f r0 v.2 i hi
        · intro w hw hfw
          have hmem := mem_of_rightFind t w.1 r0 hfw
          have := handle_unique t hwf r0 w.1 v.1 hmem hr
          exact hnd.1 (this ▸ List.mem_map_of_mem Prod.fst hw)
      · exact ih _ f' hnd.2 h v hv' r hr i hi

/-- C13: construction installs the bound values.  For a tape whose binding table is a
bijection, whose constant table has one entry per row and whose variable rows are no
constant rows, and for an initial mapping (one entry per handle) whose keys are all
bound in the tape, the constructor returns an evaluator in which lane 0 of every
constant row holds the constant's literal and lane 0 of the row of every variable of
the mapping holds the supplied value. -/
theorem construct_installs (N : Nat) (t : Tape) (vars : List (TreeId × Val)) (alloc : Buf)
    (count : Nat) (hN : 0 < N) (hwf : t.WF) (hkeys : (vars.map Prod.fst).Nodup)
    (hck : (t.constants.map Prod.fst).Nodup)
    (hdisj : ∀ p ∈ t.vars, ∀ c ∈ t.constants, c.1 ≠ p.1)
    (hbound : ∀ v ∈ vars, ∃ r, (r, v.1) ∈ t.vars) :
    ∃ e, ArrayEvaluator.construct N t vars alloc count = Except.ok e ∧
      (∀ c ∈ t.constants, e.f c.1 0 = c.2) ∧
      (∀ v ∈ vars, ∀ r, (r, v.1) ∈ t.vars → e.f r 0 = v.2) := by
  have hfind : ∀ v ∈ vars, t.rightFind v.1 ≠ none := by
    intro v hv
    obtain ⟨r, hr⟩ := hbound v hv
    rw [rightFind_of_mem t hwf r v.1 hr]
    simp
  obtain ⟨f', hf'⟩ := constructVars_ok N t vars alloc hfind
  refine ⟨{ tape := t, f := constructConsts N t.constants f', count := count }, ?_, ?_, ?_⟩
  · simp only [ArrayEvaluator.construct, hf']
  · intro c hc
    exact constructConsts_post N t.constants f' hck c hc 0 hN
  · intro v hv r hr
    show constructConsts N t.constants f' r 0 = v.2
    rw [constructConsts_frame N t.constants f' r (fun c hc => hdisj (r, v.1) hr c hc) 0]
    exact constructVars_post N t hwf vars alloc f' hkeys hf' v hv r hr 0 hN

/-- The statement of C13 on the tape of `f(x) = op(x, 3)` with `x = -1` supplied and
`N = 2`: row 2 holds the constant 3 and row 1 the supplied `-1`. -/
theorem construct_installs_witness :
    ∃ e, ArrayEvaluator.construct 2 (tapeXC 3) [(10, -1)] alloc7 0 = Except.ok e ∧
      e.f 2 0 = 3 ∧ e.f 1 0 = -1 := by
  obtain ⟨e, he, hc, hv⟩ := construct_installs 2 (tapeXC 3) [(10, -1)] alloc7 0 (by decide)
    (by simp [Tape.WF, tapeXC]) (by simp) (by simp [tapeXC])
    (by simp [tapeXC]) (by simp [tapeXC])
  exact ⟨e, he, hc (2, 3) (by simp [tapeXC]), hv (10, -1) (by simp) 1 (by simp [tapeXC])⟩

/-- C14, as stated, fails: the one-argument constructor on the tape of `op(x, y)`, with
`N = 2` and an allocation that holds 7, returns an evaluator in which lane 0 of the row
of the bound variable `x` holds 7, not 0. -/
theorem construct_default_counterexample :
    (1, 10) ∈ tapeXY.vars ∧
    ∃ e, ArrayEvaluator.construct1 2 tapeXY alloc7 0 = Except.ok e ∧ e.f 1 0 = 7 :=
  ⟨by simp [tapeXY], _, rfl, rfl⟩

/-- C14, amended: construction does not touch the row of a bound variable that has no
entry in the initial mapping (the row being no constant row): every lane of that row
holds what the array held when it was allocated. -/
theorem construct_keeps_unspecified (N : Nat) (t : Tape) (vars : List (TreeId × Val))
    (alloc : Buf) (count : Nat) (e : ArrayEvaluator) (r : ClauseId) (id : TreeId)
    (hwf : t.WF) (he : ArrayEvaluator.construct N t vars alloc count = Except.ok e)
    (hr : (r, id) ∈ t.vars) (hno : ∀ v ∈ vars, v.1 ≠ id)
    (hnc : ∀ c ∈ t.constants, c.1 ≠ r) (i : Nat) :
    e.f r i = alloc r i := by
  simp only [ArrayEvaluator.construct] at he
  cases hf : constructVars N t vars alloc with
  | error err => rw [hf] at he; simp at he
  | ok f' =>
    rw [hf] at he
    simp only [Except.ok.injEq] at he
    subst he
    show constructConsts N t.constants f' r i = alloc r i
    rw [constructConsts_frame N t.constants f' r hnc i]
    apply constructVars_frame N t vars alloc f' hf r
    intro v hv hfv
    exact hno v hv (handle_unique t hwf r v.1 id (mem_of_rightFind t v.1 r hfv) hr)

/-- The amended C14 on the tape of `op(x, y)` with only `y` supplied: the row of `x`
holds the allocated content. -/
theorem construct_keeps_unspecified_witness :
    ∃ e, ArrayEvaluator.construct 2 tapeXY [(11, 8)] alloc7 0 = Except.ok e ∧
      e.f 1 0 = alloc7 1 0 :=
  ⟨_, rfl, construct_keeps_unspecified 2 tapeXY [(11, 8)] alloc7 0 _ 1 10
    (by simp [Tape.WF, tapeXY]) rfl (by simp [tapeXY]) (by simp) (by simp [tapeXY]) 0⟩

/-! ## `updateVars` twice -/

/-- The loop of `updateVars` on a buffer that already holds every entry changes
nothing and keeps the flag. -/
theorem updateVarsLoop_noop (N : Nat) (vars_ : TreeId → Option Val)
    (l : List (ClauseId × TreeId)) :
    ∀ (changed : Bool) (f : Buf), (∀ v ∈ l, vars_ v.2 = some (f v.1 0)) →
      updateVarsLoop N vars_ l changed f = (Except.ok changed, f) := by
  induction l with
  | nil => intro _ _ _; rfl
  | cons v rest ih =>
    intro changed f h
    have hv := h v (List.mem_cons_self _ _)
    unfold updateVarsLoop
    rw [hv]
    have hne : ¬ (f v.1 0 ≠ f v.1 0) := fun hx => hx rfl
    simp only [if_neg hne]
    exact ih changed f (fun w hw => h w (List.mem_cons_of_mem _ hw))

/-- C20: `updateVars` is idempotent.  For a mapping with an entry for every bound
variable (the binding table being a bijection and a row having a lane 0), a second
call with the same mapping right after the first returns `false` and leaves the
evaluator, hence the buffer, unchanged. -/
theorem updateVars_idempotent (N : Nat) (e : ArrayEvaluator) (vars_ : TreeId → Option Val)
    (hN : 0 < N) (hwf : e.tape.WF) (hcov : ∀ v ∈ e.tape.vars, vars_ v.2 ≠ none) :
    (e.updateVars N vars_).2.updateVars N vars_ =
      (Except.ok false, (e.updateVars N vars_).2) := by
  have hpost := updateVarsLoop_post N hN vars_ e.tape.vars false e.f hwf.1 hcov
  have h := updateVarsLoop_noop N vars_ e.tape.vars false
    (updateVarsLoop N vars_ e.tape.vars false e.f).2 hpost
  simp only [ArrayEvaluator.updateVars, h]

/-- The statement of C20 on the tape of `op(x, y)` with `x = 3`, `y = 5` stored and
`x = 3`, `y = 8` supplied: the first call reports a change, the second reports none
and leaves the evaluator as the first call left it. -/
theorem updateVars_idempotent_witness :
    ((evalXY 3 5).updateVars 2 sampleVars).2.updateVars 2 sampleVars =
      (Except.ok false, ((evalXY 3 5).updateVars 2 sampleVars).2) :=
  updateVars_idempotent 2 (evalXY 3 5) sampleVars (by decide)
    (by simp [Tape.WF, evalXY, tapeXY])
    (by
      intro v hv
      simp only [evalXY, tapeXY, List.mem_cons, List.mem_singleton, List.not_mem_nil,
        or_false] at hv
      rcases hv with rfl | rfl <;> simp [sampleVars])

/-! ## Determinism of `eval` -/

/-- A dispatchable opcode that is not binary is one lane-wise assignment `out = g(a)`. -/
theorem evalClause_unary (m : Libm) (op : Opcode) (hd : op.dispatchable = true)
    (hb : op.binary = false) :
    ∃ g : Val → Val, ∀ (fuel : Nat) (e : ArrayEvaluator) (id a b : ClauseId),
      e.evalClause m fuel op id a b =
        Except.ok { e with f := headAssign e.count e.f id (fun i => g (e.f a i)) } := by
  cases op
  case SQUARE => exact ⟨fun x => x * x, fun _ _ _ _ _ => rfl⟩
  case SQRT => exact ⟨m.sqrt, fun _ _ _ _ _ => rfl⟩
  case NEG => exact ⟨fun x => -x, fun _ _ _ _ _ => rfl⟩
  case SIN => exact ⟨m.sin, fun _ _ _ _ _ => rfl⟩
  case COS => exact ⟨m.cos, fun _ _ _ _ _ => rfl⟩
  case TAN => exact ⟨m.tan, fun _ _ _ _ _ => rfl⟩
  case ASIN => exact ⟨m.asin, fun _ _ _ _ _ => rfl⟩
  case ACOS => exact ⟨m.acos, fun _ _ _ _ _ => rfl⟩
  case ATAN => exact ⟨m.atan, fun _ _ _ _ _ => rfl⟩
  case EXP => exact ⟨m.exp, fun _ _ _ _ _ => rfl⟩
  case ABS => exact ⟨fun x => |x|, fun _ _ _ _ _ => rfl⟩
  case RECIP => exact ⟨fun x => 1 / x, fun _ _ _ _ _ => rfl⟩
  case CONST_VAR => exact ⟨fun x => x, fun _ _ _ _ _ => rfl⟩
  all_goals first | exact absurd hd (by decide) | exact absurd hb (by decide)

/-- One clause evaluation from two states with the same count whose operand rows agree
on the evaluated lanes (the row `b` only if the opcode reads it): the second returns
whenever the first does, and the output rows agree on the evaluated lanes. -/
theorem evalClause_sim (m : Libm) (fuel : Nat) (e g : ArrayEvaluator) (op : Opcode)
    (id a b : ClauseId) (hc : g.count = e.count)
    (ha : ∀ i, i < e.count → e.f a i = g.f a i)
    (hb : op.binary = true → ∀ i, i < e.count → e.f b i = g.f b i)
    (e' : ArrayEvaluator) (h : e.evalClause m fuel op id a b = Except.ok e') :
    ∃ g', g.evalClause m fuel op id a b = Except.ok g' ∧
      ∀ i, i < e.count → e'.f id i = g'.f id i := by
  by_cases hm : op = Opcode.MOD
  · subst hm
    obtain ⟨f', hf, rfl⟩ := evalClause_mod_ok m fuel e e' id a b h
    obtain ⟨g', hg', hag⟩ := forLanes_modLane_sim fuel id a b e.f g.f e.count
      (fun i hi => ⟨ha i hi, hb rfl i hi⟩) f' hf
    refine ⟨{ g with f := g' }, ?_, hag⟩
    simp only [ArrayEvaluator.evalClause, hc, hg']
  · cases hd : op.dispatchable with
    | false => rw [evalClause_not_dispatchable m fuel e op id a b hd] at h; simp at h
    | true =>
      cases hbin : op.binary with
      | true =>
        obtain ⟨k, hk⟩ := evalClause_lanewise m op hd hm
        rw [hk fuel e id a b] at h
        simp only [Except.ok.injEq] at h
        subst h
        refine ⟨_, hk fuel g id a b, fun i hi => ?_⟩
        simp [headAssign, hi, hc, ha i hi, hb hbin i hi]
      | false =>
        obtain ⟨k, hk⟩ := evalClause_unary m op hd hbin
        rw [hk fuel e id a b] at h
        simp only [Except.ok.injEq] at h
        subst h
        refine ⟨_, hk fuel g id a b, fun i hi => ?_⟩
        simp [headAssign, hi, hc, ha i hi]

/-- Two walks of a well-ordered clause list from states with the same count that
agree, on the evaluated lanes, on the rows computed earlier and on the leaf rows: the
second returns whenever the first does, and afterwards the states agree on those rows
and on the rows the list computes. -/
theorem walkClauses_sim (m : Libm) (fuel : Nat) (written : List ClauseId)
    (cs : List Clause) :
    ∀ (earlier : List ClauseId) (e g : ArrayEvaluator), OrderWF written earlier cs →
      g.count = e.count →
      (∀ r, (r ∈ earlier ∨ r ∉ written) → ∀ i, i < e.count → e.f r i = g.f r i) →
      ∀ e', walkClauses m fuel cs e = Except.ok e' →
        ∃ g', walkClauses m fuel cs g = Except.ok g' ∧
          ∀ r, (r ∈ earlier ∨ r ∈ writtenRows cs ∨ r ∉ written) →
            ∀ i, i < e.count → e'.f r i = g'.f r i := by
  induction cs with
  | nil =>
    intro earlier e g _ _ hag e' h
    simp only [walkClauses, Except.ok.injEq] at h
    subst h
    refine ⟨g, rfl, fun r hr i hi => hag r ?_ i hi⟩
    rcases hr with h1 | h1 | h1
    · exact Or.inl h1
    · simp [writtenRows] at h1
    · exact Or.inr h1
  | cons c rest ih =>
    intro earlier e g hwf hc hag e' h
    obtain ⟨hwa, hwb, hwrest⟩ := hwf
    rw [walkClauses] at h
    cases h1 : e.evalClause m fuel c.op c.id c.a c.b with
    | error err => rw [h1] at h; simp at h
    | ok e1 =>
      rw [h1] at h
      obtain ⟨g1, hg1, hid⟩ := evalClause_sim m fuel e g c.op c.id c.a c.b hc
        (fun i hi => hag c.a hwa i hi) (fun hbin i hi => hag c.b (hwb hbin) i hi) e1 h1
      obtain ⟨_, hce, hfe⟩ := evalClause_frame m fuel e e1 c.op c.id c.a c.b h1
      obtain ⟨_, hcg, hfg⟩ := evalClause_frame m fuel g g1 c.op c.id c.a c.b hg1
      have hag1 : ∀ r, (r ∈ c.id :: earlier ∨ r ∉ written) →
          ∀ i, i < e1.count → e1.f r i = g1.f r i := by
        intro r hr i hi
        rw [hce] at hi
        by_cases hrid : r = c.id
        · subst hrid; exact hid i hi
        · rw [hfe r i (Or.inl hrid), hfg r i (Or.inl hrid)]
          apply hag r _ i hi
          rcases hr with h2 | h2
          · rcases List.mem_cons.mp h2 with h3 | h3
            · exact absurd h3 hrid
            · exact Or.inl h3
          · exact Or.inr h2
      obtain ⟨g', hg', hfin⟩ := ih (c.id :: earlier) e1 g1 hwrest (by rw [hcg, hce, hc])
        hag1 e' h
      refine ⟨g', by rw [walkClauses, hg1]; exact hg', ?_⟩
      intro r hr i hi
      apply hfin r _ i (by rw [hce]; exact hi)
      rcases hr with h2 | h2 | h2
      · exact Or.inl (List.mem_cons_of_mem _ h2)
      · simp only [writtenRows, List.map_cons, List.mem_cons] at h2
        rcases h2 with h3 | h3
        · exact Or.inl (by rw [h3]; exact List.mem_cons_self _ _)
        · exact Or.inr (Or.inl h3)
      · exact Or.inr (Or.inr h2)

/-- The buffer after `set(pt, index)`, lane by lane. -/
theorem set_f (e : ArrayEvaluator) (pt : Vec3) (index : Nat) (r : ClauseId) (i : Nat) :
    (e.set pt index).f r i =
      if r = e.tape.Z ∧ i = index then pt.z
      else if r = e.tape.Y ∧ i = index then pt.y
      else if r = e.tape.X ∧ i = index then pt.x
      else e.f r i := by
  simp only [ArrayEvaluator.set, setLane]

theorem evaluator_ext (x y : ArrayEvaluator) (h1 : x.tape = y.tape) (h2 : x.f = y.f)
    (h3 : x.count = y.count) : x = y := by
  cases x
  cases y
  simp_all

/-- Binding the point again on a buffer that agrees with the bound one changes
nothing. -/
theorem set_absorb (e e1 : ArrayEvaluator) (pt : Vec3) (ht : e1.tape = e.tape)
    (r : ClauseId) (i : Nat) (h : e1.f r i = (e.set pt 0).f r i) :
    (e1.set pt 0).f r i = (e.set pt 0).f r i := by
  rw [set_f e1, ht, h, set_f e]
  split_ifs <;> rfl

/-- C15: single-point evaluation is deterministic.  On a well-formed active order
(every active clause a non-leaf whose operands are leaves or computed earlier), if
`eval(pt)` returns a value then a second `eval(pt)` right after it returns the same
value and leaves the evaluator as the first call left it; the walk has not modified
any row that no active clause computes (the leaf rows hold what `set` bound).  When no
active clause is a `MOD`, `eval(pt)` does return. -/
theorem eval_deterministic (m : Libm) (fuel : Nat) (e : ArrayEvaluator) (pt : Vec3)
    (hwf : e.tape.ActiveWF) :
    (∀ v e1, e.eval m fuel pt = Except.ok (v, e1) →
      e1.eval m fuel pt = Except.ok (v, e1) ∧
      ∀ r, r ∉ writtenRows e.tape.active → ∀ i, e1.f r i = (e.set pt 0).f r i) ∧
    ((∀ c ∈ e.tape.active, c.op ≠ Opcode.MOD) →
      ∃ v e1, e.eval m fuel pt = Except.ok (v, e1)) := by
  constructor
  · intro v e1 h
    obtain ⟨hw, hv⟩ := (eval_ok_iff m fuel e pt v e1).mp h
    obtain ⟨ht, hcount, hfr⟩ := walkClauses_frame m fuel e.tape.active _ e1 hw
    have ht' : e1.tape = e.tape := ht
    have hcount' : e1.count = 1 := hcount
    have hleaf : ∀ r, r ∉ writtenRows e.tape.active → ∀ i, e1.f r i = (e.set pt 0).f r i :=
      fun r hr i => hfr r i (Or.inl hr)
    refine ⟨?_, hleaf⟩
    rw [eval_ok_iff, ht']
    refine ⟨?_, hv⟩
    obtain ⟨g', hg', hag⟩ := walkClauses_sim m fuel (writtenRows e.tape.active) e.tape.active []
      { tape := e.tape, f := (e.set pt 0).f, count := 1 }
      { tape := e.tape, f := (e1.set pt 0).f, count := 1 } hwf.2 rfl
      (by
        intro r hr i _
        rcases hr with h1 | h1
        · simp at h1
        · exact (set_absorb e e1 pt ht' r i (hleaf r h1 i)).symm)
      e1 hw
    obtain ⟨htg, hcg, hfg⟩ := walkClauses_frame m fuel e.tape.active _ g' hg'
    have heq : g' = e1 := by
      apply evaluator_ext
      · rw [ht']; exact htg
      · funext r i
        by_cases hi : i < 1
        · have hmem : r ∈ ([] : List ClauseId) ∨ r ∈ writtenRows e.tape.active ∨
              r ∉ writtenRows e.tape.active := by
            by_cases hr : r ∈ writtenRows e.tape.active
            · exact Or.inr (Or.inl hr)
            · exact Or.inr (Or.inr hr)
          exact (hag r hmem i hi).symm
        · have hi0 : i ≠ 0 := by omega
          have h1 : g'.f r i = (e1.set pt 0).f r i := hfg r i (Or.inr (by
            show 1 ≤ i
            omega))
          rw [h1, set_f]
          simp [hi0]
      · rw [hcount']; exact hcg
    rw [hg', heq]
  · intro hnm
    obtain ⟨e1, he1⟩ := walkClauses_ok m fuel e.tape.active
      { tape := e.tape, f := (e.set pt 0).f, count := 1 }
      (fun c hc => ⟨hwf.1 c hc, hnm c hc⟩)
    exact ⟨_, e1, (eval_ok_iff m fuel e pt _ e1).mpr ⟨he1, rfl⟩⟩

/-- The statement of C15 on `max(x, y)` at `(3, 5)`: `eval` returns 5, and a second
`eval` from the state it leaves returns 5 again and leaves the same state. -/
theorem eval_deterministic_witness :
    ∃ e1, evalMax.eval Libm.sample 0 { x := 3, y := 5, z := 0 } = Except.ok (5, e1) ∧
      e1.eval Libm.sample 0 { x := 3, y := 5, z := 0 } = Except.ok (5, e1) := by
  have hwf : evalMax.tape.ActiveWF := by
    simp [Tape.ActiveWF, OrderWF, writtenRows, evalMax, tapeMax, Opcode.dispatchable]
  have h : ∃ e1, evalMax.eval Libm.sample 0 { x := 3, y := 5, z := 0 } = Except.ok (5, e1) :=
    ⟨_, (eval_ok_iff Libm.sample 0 evalMax { x := 3, y := 5, z := 0 } _ _).mpr
      ⟨rfl, by norm_num [headAssign, evalMax, tapeMax, ArrayEvaluator.set, setLane]⟩⟩
  obtain ⟨e1, he1⟩ := h
  exact ⟨e1, he1,
    ((eval_deterministic Libm.sample 0 evalMax { x := 3, y := 5, z := 0 } hwf).1 5 e1 he1).1⟩

end Kernel
